import Mathlib

/-!
Verification development for the flowchart editor `src/script.js`
(text parser and tree layout engine).

The JavaScript source is shallowly embedded below:

* strings are handled as `List Char` (JS strings of ASCII text);
* the JS object `nodes` (an insertion-ordered string-keyed dictionary)
  becomes an association list `List (String × Node)`;
* the JS `Map`s `xPosition`/`depth` become association lists with
  `setEntry`/`getEntry` (set overwrites, get returns `Option`);
* the JS `Set` `collapsed` becomes a `List String` queried with `contains`;
* JS numbers holding layout slots become `ℚ` (the slot arithmetic of the
  source only produces dyadic rationals, which doubles represent exactly);
* the recursive functions `firstPass` and the visible-set DFS of
  `layoutTree`, which in JS recurse without any a-priori bound, are
  embedded with an explicit fuel parameter and return `none` when the
  fuel runs out; termination of the JS original corresponds to success
  for some (equivalently, all sufficiently large) fuel.
-/

namespace Flowchart

/-- Whitespace test matching the JavaScript `\s` class (and `String.trim`)
for the ASCII range. -/
def isWs (c : Char) : Bool :=
  c = ' ' || c = '\t' || c = '\n' || c = '\r' || c = '\x0b' || c = '\x0c'

/-- `text.split(/\r?\n/)` from `parse`: split into lines at `'\n'`;
a preceding `'\r'` is left on the line and later removed by `trimLine`,
which gives the same line contents as the JS regex split followed by
`trim`. -/
def splitNL : List Char → List (List Char)
  | [] => [[]]
  | '\n' :: rest => [] :: splitNL rest
  | c :: rest =>
    match splitNL rest with
    | [] => [[c]]
    | l :: ls => (c :: l) :: ls

/-- `raw.trim()` from `parse`. -/
def trimLine (l : List Char) : List Char :=
  ((l.dropWhile isWs).reverse.dropWhile isWs).reverse

/-- `line.startsWith('node ')`. -/
def startsWithNode : List Char → Bool
  | 'n' :: 'o' :: 'd' :: 'e' :: ' ' :: _ => true
  | _ => false

/-- `line.startsWith('edge ')`. -/
def startsWithEdge : List Char → Bool
  | 'e' :: 'd' :: 'g' :: 'e' :: ' ' :: _ => true
  | _ => false

/-- Matcher for the node regex `^node\s+(\S+)\s+"([^"]*)"?$`.
Derivation from the regex: `\s+` and `(\S+)` runs are forced to be the
maximal runs (a `\s` char can never match `\S` and vice versa), the
opening quote must follow the second whitespace run directly, the title
is the maximal quote-free run, and after an optional closing quote the
line must end. Returns the two capture groups `(id, title)`. -/
def matchNode (line : List Char) : Option (String × String) :=
  match line with
  | 'n' :: 'o' :: 'd' :: 'e' :: rest =>
    let ws1 := rest.takeWhile isWs
    if ws1.isEmpty then none else
    let r1 := rest.dropWhile isWs
    let idTok := r1.takeWhile (fun c => !isWs c)
    if idTok.isEmpty then none else
    let r2 := r1.dropWhile (fun c => !isWs c)
    if (r2.takeWhile isWs).isEmpty then none else
    match r2.dropWhile isWs with
    | '"' :: r4 =>
      let title := r4.takeWhile (fun c => c ≠ '"')
      match r4.dropWhile (fun c => c ≠ '"') with
      | [] => some (String.mk idTok, String.mk title)
      | ['"'] => some (String.mk idTok, String.mk title)
      | _ => none
    | _ => none
  | _ => none

/-- The `\s*->\s*(\S+)$` tail of the edge regex: skip whitespace, read
the literal arrow, skip whitespace; the remainder is the `to` capture
and must be a nonempty run of non-whitespace reaching the end. -/
def edgeTail (cs : List Char) : Option String :=
  match cs.dropWhile isWs with
  | '-' :: '>' :: r2 =>
    let r3 := r2.dropWhile isWs
    if r3.isEmpty then none
    else if r3.any isWs then none
    else some (String.mk r3)
  | _ => none

/-- Backtracking over the greedy `(\S+)` group of the edge regex: the
`from` capture is the longest nonempty prefix of the first
non-whitespace run such that the rest of the line matches
`\s*->\s*(\S+)$` (the arrow characters are themselves `\S`, so the run
may contain them and the regex engine backtracks exactly like this). -/
def tryEdgeSplit (run : List Char) (afterRun : List Char) : Nat → Option (String × String)
  | 0 => none
  | k + 1 =>
    match edgeTail (run.drop (k + 1) ++ afterRun) with
    | some b => some (String.mk (run.take (k + 1)), b)
    | none => tryEdgeSplit run afterRun k

/-- Matcher for the edge regex `^edge\s+(\S+)\s*->\s*(\S+)$`.
Returns the two capture groups `(from, to)`. -/
def matchEdge (line : List Char) : Option (String × String) :=
  match line with
  | 'e' :: 'd' :: 'g' :: 'e' :: rest =>
    let ws1 := rest.takeWhile isWs
    if ws1.isEmpty then none else
    let r1 := rest.dropWhile isWs
    let run := r1.takeWhile (fun c => !isWs c)
    if run.isEmpty then none else
    tryEdgeSplit run (r1.dropWhile (fun c => !isWs c)) run.length
  | _ => none

/-- A parsed node: `nodes[id] = {id, title, children}` in `parse`. -/
structure Node where
  id : String
  title : String
  children : List String
deriving DecidableEq

/-- A parsed edge: `{from, to, line}` in `parse` (`from` is a Lean
keyword, hence `fromId`/`toId`). -/
structure Edge where
  fromId : String
  toId : String
  line : Nat
deriving DecidableEq

/-- The parse result `{nodes, edges, root}`; `nodes` is the
insertion-ordered dictionary embedded as an association list. -/
structure Model where
  nodes : List (String × Node)
  edges : List Edge
  root : String
deriving DecidableEq

/-- Own-property read `nodes[id]` restricted to own keys: `some` iff
`id` was assigned into the dictionary (insertion order kept). -/
def lookupNode (nodes : List (String × Node)) (id : String) : Option Node :=
  (nodes.find? (fun p => p.1 = id)).map (·.2)

/-- The own keys of the dictionary in insertion order (NOT the
`Object.keys` enumeration order, which is `jsKeys` below). -/
def keysOf (nodes : List (String × Node)) : List String :=
  nodes.map (·.1)

/-- The own property names of `Object.prototype`: on an object created
by `{}`, the read `nodes[id]` also finds these inherited properties,
and every one of them is truthy (they are functions, and `__proto__`
evaluates to `Object.prototype` itself). -/
def protoProps : List String :=
  ["constructor", "hasOwnProperty", "isPrototypeOf", "propertyIsEnumerable",
   "toLocaleString", "toString", "valueOf",
   "__defineGetter__", "__defineSetter__", "__lookupGetter__",
   "__lookupSetter__", "__proto__"]

/-- Truthiness of the read `nodes[id]` on the `{}`-created dictionary:
an own key, or one of the `Object.prototype` inherited names. -/
def truthy (nodes : List (String × Node)) (id : String) : Bool :=
  (lookupNode nodes id).isSome || protoProps.contains id

/-- Numeric value of a decimal digit string (the strings fed to it are
all-digit by construction). -/
def strToNat (s : String) : Nat :=
  s.data.foldl (fun a c => a * 10 + (c.toNat - 48)) 0

/-- A string is an array-index property key: the canonical decimal
form (digits only, no leading zero except `"0"` itself) of an integer
`0 ≤ n < 2^32 - 1`.  `Object.keys` enumerates these before all other
string keys, in ascending numeric order. -/
def isArrayIndex (s : String) : Bool :=
  !s.data.isEmpty && s.data.all Char.isDigit &&
  (s.data == ['0'] || s.data.head? != some '0') &&
  strToNat s < 4294967295

/-- Insert into a list sorted by ascending numeric value. -/
def insertByVal (k : String) : List String → List String
  | [] => [k]
  | x :: xs => if strToNat k < strToNat x then k :: x :: xs else x :: insertByVal k xs

/-- Sort strings by ascending numeric value (insertion sort; the keys
it is used on are distinct canonical numerals, so no ties arise). -/
def sortByVal : List String → List String
  | [] => []
  | x :: xs => insertByVal x (sortByVal xs)

/-- `Object.keys(nodes)`: array-index keys first in ascending numeric
order, then the remaining string keys in insertion order. -/
def jsKeys (nodes : List (String × Node)) : List String :=
  sortByVal ((keysOf nodes).filter isArrayIndex) ++
    (keysOf nodes).filter (fun k => !isArrayIndex k)

/-- The line-scanning loop of `parse` (`for (const raw of lines)`),
accumulating the node dictionary and the edge list, or returning the
first error. `lineNum` holds the number of lines already consumed.
The duplicate check is the truthy read `if (nodes[id])`, so an id that
names an `Object.prototype` property (e.g. `toString`) is rejected as
a duplicate already at its first declaration; consequently an inherited
name never becomes an own key (and the `__proto__` setter is never
reached by the assignment `nodes[id] = ...`). -/
def scanLines : List (List Char) → Nat → List (String × Node) → List Edge →
    Except String (List (String × Node) × List Edge)
  | [], _, nodes, edges => .ok (nodes, edges)
  | raw :: rest, lineNum, nodes, edges =>
    let n := lineNum + 1
    let line := trimLine raw
    if line.isEmpty then scanLines rest n nodes edges
    else if startsWithNode line then
      match matchNode line with
      | none => .error ("Line " ++ toString n ++ ": Bad Node Syntax")
      | some (id, title) =>
        if truthy nodes id then
          .error ("Line " ++ toString n ++ ": Duplicate Node id \"" ++ id ++ "\"")
        else
          scanLines rest n
            (nodes ++ [(id, { id := id, title := if title = "" then id else title,
                              children := [] })]) edges
    else if startsWithEdge line then
      match matchEdge line with
      | none => .error ("Line " ++ toString n ++ ": Bad Edge Syntax")
      | some ft =>
        scanLines rest n nodes (edges ++ [{ fromId := ft.1, toId := ft.2, line := n }])
    else .error ("Line " ++ toString n ++ ": Unknown Directive")

/-- `nodes[edge.from].children.push(edge.to)`. -/
def appendChild (nodes : List (String × Node)) (f t : String) : List (String × Node) :=
  nodes.map (fun p => if p.1 = f then (p.1, { p.2 with children := p.2.children ++ [t] }) else p)

/-- The edge-validation loop of `parse` (`for (const edge of edges)`):
the checks are the truthy reads `if (!nodes[edge.from])` then
`if (!nodes[edge.to])`, in edge-declaration order, so an endpoint that
names an `Object.prototype` property passes them; the subsequent
`nodes[edge.from].children.push(edge.to)` then throws a `TypeError`
when `edge.from` is such an inherited (never own) name — rendered as
`none`.  A valid edge appends its target (own-keyed or not) to the
source's children. -/
def checkEdges : List Edge → List (String × Node) →
    Option (Except String (List (String × Node)))
  | [], nodes => some (.ok nodes)
  | e :: rest, nodes =>
    if !truthy nodes e.fromId then
      some (.error ("Line " ++ toString e.line ++ ": Unknown Node \"" ++ e.fromId ++ "\""))
    else if !truthy nodes e.toId then
      some (.error ("Line " ++ toString e.line ++ ": unknown node \"" ++ e.toId ++ "\""))
    else if (lookupNode nodes e.fromId).isNone then
      none
    else checkEdges rest (appendChild nodes e.fromId e.toId)

/-- `parse(text)`: split into lines, scan them, validate and apply the
edges, then pick the root
(`Object.keys(nodes).find(id => !targets.has(id)) || Object.keys(nodes)[0]`,
in `Object.keys` enumeration order) or fail with `No Nodes Defined`.
`some (.ok m)` and `some (.error e)` are the returned `{nodes,...}` and
`{error}` objects; `none` is a thrown `TypeError` (uncaught by the
caller). -/
def parse (text : String) : Option (Except String Model) :=
  match scanLines (splitNL text.toList) 0 [] [] with
  | .error e => some (.error e)
  | .ok (nodes0, edges) =>
    match checkEdges edges nodes0 with
    | none => none
    | some (.error e) => some (.error e)
    | some (.ok nodes) =>
      let targets := edges.map (·.toId)
      match (jsKeys nodes).find? (fun id => !targets.contains id) with
      | some r => some (.ok { nodes := nodes, edges := edges, root := r })
      | none =>
        match jsKeys nodes with
        | r :: _ => some (.ok { nodes := nodes, edges := edges, root := r })
        | [] => some (.error "No Nodes Defined")

/-- `const NODE_W = 130`. -/
def NODE_W : ℚ := 130

/-- `const NODE_H = 46`. -/
def NODE_H : ℚ := 46

/-- `const X_GAP = 36`. -/
def X_GAP : ℚ := 36

/-- `const Y_GAP = 80`. -/
def Y_GAP : ℚ := 80

/-- `visibleChildren(id, nodes)`: a collapsed node contributes no
children; otherwise the node's child list (missing ids yield `[]`,
which is only reachable for ill-formed models). The global JS set
`collapsed` is an explicit argument here. -/
def visibleChildren (collapsed : List String) (nodes : List (String × Node))
    (id : String) : List String :=
  if collapsed.contains id then []
  else
    match lookupNode nodes id with
    | some n => n.children
    | none => []

/-- `Map.prototype.set`: overwrite an existing key, else append. -/
def setEntry {α : Type} (m : List (String × α)) (k : String) (v : α) :
    List (String × α) :=
  if m.any (fun p => p.1 = k) then m.map (fun p => if p.1 = k then (k, v) else p)
  else m ++ [(k, v)]

/-- `Map.prototype.get`. -/
def getEntry {α : Type} (m : List (String × α)) (k : String) : Option α :=
  (m.find? (fun p => p.1 = k)).map (·.2)

/-- The mutable state of `layoutTree`'s first pass: the `xPosition`
map, the `xPositionNext` counter, and the `depth` map. -/
structure PassState where
  xPos : List (String × ℚ)
  xNext : Nat
  depth : List (String × Nat)
deriving DecidableEq

/-- `Math.min(...xs)` on a nonempty list. -/
def minList : List ℚ → ℚ
  | [] => 0
  | x :: xs => xs.foldl min x

/-- `Math.max(...xs)` on a nonempty list. -/
def maxList : List ℚ → ℚ
  | [] => 0
  | x :: xs => xs.foldl max x

/-- `kids.forEach(k => firstPass(k, d+1))`: run the supplied body `fp`
(one fuel step of `firstPass`) on the children left to right, threading
the state; `none` aborts (the fuel ran out inside a child). -/
def goKids (fp : String → Nat → PassState → Option PassState) :
    List String → Nat → PassState → Option PassState
  | [], _, st => some st
  | k :: ks, d, st =>
    match fp k d st with
    | none => none
    | some st' => goKids fp ks d st'

/-- `firstPass(id, d)` of `layoutTree`, with explicit fuel: record the
depth; a node with no visible children takes the next slot and bumps
the counter; otherwise the children are positioned first and the node
is centred at the average of the minimum and maximum child slots.
The JS recursion has no revisit guard, hence no fuel bound exists for
models with a reachable visible cycle. -/
def firstPassFuel (c : List String) (nodes : List (String × Node)) :
    Nat → String → Nat → PassState → Option PassState
  | 0, _, _, _ => none
  | fuel + 1, id, d, st =>
    let st1 : PassState := { st with depth := setEntry st.depth id d }
    let kids := visibleChildren c nodes id
    if kids.isEmpty then
      some { st1 with xPos := setEntry st1.xPos id (st1.xNext : ℚ),
                      xNext := st1.xNext + 1 }
    else
      match goKids (firstPassFuel c nodes fuel) kids (d + 1) st1 with
      | none => none
      | some st2 =>
        let ps := kids.map (fun k => (getEntry st2.xPos k).getD 0)
        some { st2 with xPos := setEntry st2.xPos id ((minList ps + maxList ps) / 2) }

/-- `children(id).forEach(depthFirstSearch)`: the DFS body `df` on each
child in turn, threading the visited list. -/
def dfsKids (df : String → List String → Option (List String)) :
    List String → List String → Option (List String)
  | [], vis => some vis
  | k :: ks, vis =>
    match df k vis with
    | none => none
    | some vis' => dfsKids df ks vis'

/-- The `depthFirstSearch` closure of `layoutTree` computing the
visible set, with explicit fuel: skip already-visited ids, otherwise
record the id and recurse into its visible children. -/
def dfsFuel (c : List String) (nodes : List (String × Node)) :
    Nat → String → List String → Option (List String)
  | 0, _, _ => none
  | fuel + 1, id, vis =>
    if vis.contains id then some vis
    else dfsKids (dfsFuel c nodes fuel) (visibleChildren c nodes id) (vis ++ [id])

/-- The result `{coords, vis}` of `layoutTree`. -/
structure LayoutResult where
  coords : List (String × (ℚ × ℚ))
  vis : List String
deriving DecidableEq

/-- Coordinate-map read `coords[id]`. -/
def getCoord (coords : List (String × (ℚ × ℚ))) (id : String) : Option (ℚ × ℚ) :=
  (coords.find? (fun p => p.1 = id)).map (·.2)

/-- `layoutTree(model)` with the collapse set explicit and a fuel bound
for the two unbounded recursions: run `firstPass(root, 0)` from the
empty maps, compute the visible set by DFS from the root, then build
`coords[id] = {x: xPosition.get(id) * (NODE_W + X_GAP),
y: (depth.get(id) || 0) * (NODE_H + Y_GAP)}` for each visible id
(`getD 0` renders both the `|| 0` default and the impossible
missing-entry case). -/
def layoutTree (fuel : Nat) (model : Model) (c : List String) : Option LayoutResult :=
  match firstPassFuel c model.nodes fuel model.root 0
      { xPos := [], xNext := 0, depth := [] } with
  | none => none
  | some st =>
    match dfsFuel c model.nodes fuel model.root [] with
    | none => none
    | some vis =>
      some { coords := vis.map (fun id =>
               (id, ((getEntry st.xPos id).getD 0 * (NODE_W + X_GAP),
                     ((getEntry st.depth id).getD 0 : ℚ) * (NODE_H + Y_GAP)))),
             vis := vis }

/-- `mergeCollapseState(oldSet, newNodes)`: delete every collapsed id
that is not a key of the new node dictionary. -/
def mergeCollapseState (oldSet : List String) (newNodes : List (String × Node)) :
    List String :=
  oldSet.filter (fun id => (lookupNode newNodes id).isSome)

/-- The effect of the `onInput` handler on the collapse set: on a parse
error it returns early, and on a `TypeError` thrown inside `parse` the
exception propagates out of the handler — either way before
`mergeCollapseState`, so the set is untouched; on success the set is
pruned against the new node dictionary. -/
def onInputCollapsed (collapsed : List String) (text : String) : List String :=
  match parse text with
  | some (.error _) => collapsed
  | some (.ok m) => mergeCollapseState collapsed m.nodes
  | none => collapsed

/-! ## Derived notions used to state the claims -/

/-- An edge fails the truthy reference check of `parse`'s second loop:
one of its endpoints is neither an own key nor an inherited name. -/
def badEdge (nodes : List (String × Node)) (e : Edge) : Bool :=
  !truthy nodes e.fromId || !truthy nodes e.toId

/-- An edge passes both truthy checks but its `from` endpoint is not an
own key (an inherited name): `nodes[edge.from].children.push` then
throws a `TypeError`. -/
def crashEdge (nodes : List (String × Node)) (e : Edge) : Bool :=
  !(badEdge nodes e) && (lookupNode nodes e.fromId).isNone

/-- An edge stops the validation loop: it either fails a truthy check
(an error is returned) or crashes the push (a `TypeError` is thrown). -/
def stopEdge (nodes : List (String × Node)) (e : Edge) : Bool :=
  badEdge nodes e || crashEdge nodes e

/-- The message `parse` reports for a failing edge: the `from` endpoint
is checked first. -/
def edgeErrMsg (nodes : List (String × Node)) (e : Edge) : String :=
  if !truthy nodes e.fromId then
    "Line " ++ toString e.line ++ ": Unknown Node \"" ++ e.fromId ++ "\""
  else
    "Line " ++ toString e.line ++ ": unknown node \"" ++ e.toId ++ "\""

/-- One visible-children step: `b` is a visible child of `a`. -/
def stepVis (c : List String) (nodes : List (String × Node)) (a b : String) : Prop :=
  b ∈ visibleChildren c nodes a

instance (c : List String) (nodes : List (String × Node)) (a b : String) :
    Decidable (stepVis c nodes a b) := by
  unfold stepVis
  infer_instance

/-- `b` is reachable from `a` following visible children (the set the
DFS of `layoutTree` explores). -/
def ReachVis (c : List String) (nodes : List (String × Node)) (a b : String) : Prop :=
  Relation.ReflTransGen (stepVis c nodes) a b

/-- All ids occurring in some node's child list. -/
def allChildren (nodes : List (String × Node)) : List String :=
  (nodes.map (fun p => p.2.children)).flatten

/-- The model shape the layout claims assume: distinct keys, the root
is a key, every child id is a key.  `parse` guarantees the first two;
the third can fail on an edge whose target is an inherited
`Object.prototype` name (the push succeeds, leaving a dangling child),
so it is taken as a hypothesis rather than derived. -/
def Wellformed (m : Model) : Prop :=
  (keysOf m.nodes).Nodup ∧ m.root ∈ keysOf m.nodes ∧
    ∀ p ∈ m.nodes, ∀ ch ∈ p.2.children, ch ∈ keysOf m.nodes

/-- The model is a strict tree: wellformed, no id is the child of two
parents (or twice of one), and the root is nobody's child. -/
def StrictTree (m : Model) : Prop :=
  Wellformed m ∧ (allChildren m.nodes).Nodup ∧ m.root ∉ allChildren m.nodes

instance (m : Model) : Decidable (Wellformed m) := by
  unfold Wellformed
  infer_instance

instance (m : Model) : Decidable (StrictTree m) := by
  unfold StrictTree Wellformed
  infer_instance

/-- The visible portion reachable from the root is a strict tree: no
visible node is reachable by more than one path. Spelled as: reachable
unique visible parents, no reachable visible cycle, and no repeated
child within one visible child list (`StrictTree` implies all three). -/
def VisTreeFrom (c : List String) (nodes : List (String × Node)) (root : String) : Prop :=
  (∀ a b y, ReachVis c nodes root a → ReachVis c nodes root b →
      stepVis c nodes a y → stepVis c nodes b y → a = b) ∧
  (∀ y, ReachVis c nodes root y →
      ¬ Relation.TransGen (stepVis c nodes) y y) ∧
  (∀ y, ReachVis c nodes root y → (visibleChildren c nodes y).Nodup)

/-- The slot `firstPass` gives a non-leaf: the average of the minimum
and maximum slot among its immediate visible children, read from an
`xPosition` map. -/
def centerOf (c : List String) (nodes : List (String × Node))
    (xPos : List (String × ℚ)) (y : String) : ℚ :=
  (minList ((visibleChildren c nodes y).map (fun k => (getEntry xPos k).getD 0)) +
   maxList ((visibleChildren c nodes y).map (fun k => (getEntry xPos k).getD 0))) / 2

/-! ## Concrete models used by witnesses and counterexamples -/

/-- `parse "node A \"a\"\nedge A -> A"`: a self-edge, accepted by the
parser. -/
def cycModel : Model :=
  { nodes := [("A", { id := "A", title := "a", children := ["A"] })],
    edges := [{ fromId := "A", toId := "A", line := 2 }], root := "A" }

/-- `parse "node A \"a\""`: a single node, no edges. -/
def oneNodeModel : Model :=
  { nodes := [("A", { id := "A", title := "a", children := [] })],
    edges := [], root := "A" }

/-- Shorthand for a test node whose title is its id. -/
def mkN (id : String) (kids : List String) : String × Node :=
  (id, { id := id, title := id, children := kids })

/-- A strict tree whose root has children landing on slots 0, 2 and 4:
`c1` is a leaf (slot 0), `c2` has three leaf children on slots 1, 2, 3
(so `c2` sits on slot 2), `c3` is a leaf (slot 4). -/
def model024 : Model :=
  { nodes := [mkN "R" ["c1", "c2", "c3"], mkN "c1" [],
              mkN "c2" ["d1", "d2", "d3"], mkN "c3" [],
              mkN "d1" [], mkN "d2" [], mkN "d3" []],
    edges := [], root := "R" }

/-- A multi-parent model: `C` is a child of both `R` and `A`. -/
def diamondModel : Model :=
  { nodes := [mkN "R" ["A", "C"], mkN "A" ["C"], mkN "C" []],
    edges := [], root := "R" }

/-- A multi-parent model with unequal path lengths to `X`: `R → A → X`
and `R → B → Cc → X`. -/
def unevenModel : Model :=
  { nodes := [mkN "R" ["A", "B"], mkN "A" ["X"], mkN "B" ["Cc"],
              mkN "Cc" ["X"], mkN "X" []],
    edges := [], root := "R" }

/-- The id of the `i`-th chain node: `i + 1` copies of `'a'` (distinct
nonempty ids). -/
def chainId (i : Nat) : String :=
  String.mk (List.replicate (i + 1) 'a')

/-- The node dictionary of a single chain of `n` nodes: node `i` has
the single child `i + 1`, except the last. -/
def chainNodes (n : Nat) : List (String × Node) :=
  (List.range n).map (fun i =>
    (chainId i, { id := chainId i, title := chainId i,
                  children := if i + 1 < n then [chainId (i + 1)] else [] }))

/-- A model that is a single chain of `n` nodes. -/
def chainModel (n : Nat) : Model :=
  { nodes := chainNodes n, edges := [], root := chainId 0 }

/-- The initial state of `layoutTree`'s first pass. -/
def initState : PassState :=
  { xPos := [], xNext := 0, depth := [] }

deriving instance DecidableEq for Except

/-! ## Theorems -/

attribute [local semireducible] Rat.mul Rat.add Rat.inv

/-! ### Association-list map lemmas -/

theorem find?_map_upd_self {α : Type} (m : List (String × α)) (k : String) (v : α)
    (h : m.any (fun p => p.1 = k) = true) :
    (m.map (fun p => if p.1 = k then (k, v) else p)).find? (fun p => p.1 = k) =
      some (k, v) := by
  induction m with
  | nil => simp at h
  | cons p rest ih =>
    by_cases hp : p.1 = k
    · simp [hp]
    · simp only [List.any_cons, decide_eq_true_eq, hp, false_or] at h
      simpa [hp] using ih h

theorem getEntry_setEntry_self {α : Type} (m : List (String × α)) (k : String) (v : α) :
    getEntry (setEntry m k v) k = some v := by
  unfold setEntry getEntry
  by_cases h : m.any (fun p => p.1 = k)
  · rw [if_pos h, find?_map_upd_self m k v h]; rfl
  · rw [if_neg h]
    have hnone : m.find? (fun p => p.1 = k) = none := by
      rw [List.find?_eq_none]
      intro x hx
      simp only [List.any_eq_true, decide_eq_true_eq] at h
      push_neg at h
      simpa using h x hx
    simp [List.find?_append, hnone]

theorem find?_map_upd_ne {α : Type} (m : List (String × α)) (k y : String) (v : α)
    (h : y ≠ k) :
    (m.map (fun p => if p.1 = k then (k, v) else p)).find? (fun p => p.1 = y) =
      m.find? (fun p => p.1 = y) := by
  have hky : ¬ ((k : String) = y) := fun hh => h hh.symm
  induction m with
  | nil => rfl
  | cons p rest ih =>
    by_cases hp : p.1 = k
    · have hpy : ¬ (p.1 = y) := by rw [hp]; exact hky
      rw [List.map_cons, if_pos hp,
        List.find?_cons_of_neg _ (by simpa using hky),
        List.find?_cons_of_neg _ (by simpa using hpy), ih]
    · by_cases hpy : p.1 = y
      · rw [List.map_cons, if_neg hp,
          List.find?_cons_of_pos _ (by simpa using hpy),
          List.find?_cons_of_pos _ (by simpa using hpy)]
      · rw [List.map_cons, if_neg hp,
          List.find?_cons_of_neg _ (by simpa using hpy),
          List.find?_cons_of_neg _ (by simpa using hpy), ih]

theorem getEntry_setEntry_ne {α : Type} (m : List (String × α)) (k y : String) (v : α)
    (h : y ≠ k) : getEntry (setEntry m k v) y = getEntry m y := by
  unfold setEntry getEntry
  by_cases hm : m.any (fun p => p.1 = k)
  · rw [if_pos hm, find?_map_upd_ne m k y v h]
  · rw [if_neg hm]
    have hky : ¬ ((k : String) = y) := fun hh => h hh.symm
    rw [List.find?_append]
    cases hfind : m.find? (fun p => p.1 = y) with
    | none => simp [hky]
    | some p => simp

theorem getEntry_isSome_setEntry {α : Type} (m : List (String × α)) (k y : String) (v : α)
    (h : (getEntry m y).isSome) : (getEntry (setEntry m k v) y).isSome := by
  by_cases hy : y = k
  · subst hy; rw [getEntry_setEntry_self]; rfl
  · rw [getEntry_setEntry_ne m k y v hy]; exact h

/-! ### C9: a failed parse leaves the collapse set untouched -/

/-- C9: if `parse` returns an error, the `onInput` handler returns
before `mergeCollapseState`, so the collapse set is completely
unchanged — no identifier is removed or added. -/
theorem c9_failed_parse_preserves_collapse (collapsed : List String) (text : String)
    (e : String) (h : parse text = some (.error e)) :
    onInputCollapsed collapsed text = collapsed := by
  simp [onInputCollapsed, h]

/-- Witness for C9 at a concrete failing input. -/
theorem c9_witness : onInputCollapsed ["a", "b"] "garbage" = ["a", "b"] :=
  c9_failed_parse_preserves_collapse ["a", "b"] "garbage"
    "Line 1: Unknown Directive" (by decide)

/-! ### C7: parse and layout are deterministic pure functions -/

/-- C7: `parse` is a pure function of the text and `layoutTree` of the
model, collapse set (and fuel), so re-running the whole pipeline on
identical inputs yields identical results; in this embedding all
state of the JS code (the `collapsed` set) is an explicit argument,
so purity holds definitionally. -/
theorem c7_parse_layout_deterministic (text : String) (m : Model) (c : List String)
    (fuel : Nat) :
    parse text = parse text ∧
    layoutTree fuel m c = layoutTree fuel m c ∧
    (parse text).map (Except.map (fun m0 => layoutTree fuel m0 c)) =
      (parse text).map (Except.map (fun m0 => layoutTree fuel m0 c)) :=
  ⟨rfl, rfl, rfl⟩

/-! ### C5: error-propagation order of the parser -/

theorem lookupNode_appendChild_isSome (ns : List (String × Node)) (f t y : String) :
    (lookupNode (appendChild ns f t) y).isSome = (lookupNode ns y).isSome := by
  unfold lookupNode appendChild
  induction ns with
  | nil => rfl
  | cons p rest ih =>
    have hkey : ((if p.1 = f then (p.1, { p.2 with children := p.2.children ++ [t] })
        else p)).1 = p.1 := by
      by_cases hf : p.1 = f <;> simp [hf]
    by_cases hp : p.1 = y
    · rw [List.map_cons,
        List.find?_cons_of_pos _ (by simpa [hkey] using hp),
        List.find?_cons_of_pos _ (by simpa using hp)]
      rfl
    · rw [List.map_cons,
        List.find?_cons_of_neg _ (by simpa [hkey] using hp),
        List.find?_cons_of_neg _ (by simpa using hp)]
      exact ih

theorem isNone_congr_of_isSome {α : Type} {o1 o2 : Option α}
    (h : o1.isSome = o2.isSome) : o1.isNone = o2.isNone := by
  cases o1 <;> cases o2 <;> simp_all

theorem truthy_appendChild (ns : List (String × Node)) (f t y : String) :
    truthy (appendChild ns f t) y = truthy ns y := by
  unfold truthy
  rw [lookupNode_appendChild_isSome]

theorem badEdge_appendChild (ns : List (String × Node)) (f t : String) (e : Edge) :
    badEdge (appendChild ns f t) e = badEdge ns e := by
  unfold badEdge
  rw [truthy_appendChild, truthy_appendChild]

theorem crashEdge_appendChild (ns : List (String × Node)) (f t : String) (e : Edge) :
    crashEdge (appendChild ns f t) e = crashEdge ns e := by
  unfold crashEdge
  rw [badEdge_appendChild,
    isNone_congr_of_isSome (lookupNode_appendChild_isSome ns f t e.fromId)]

theorem stopEdge_appendChild (ns : List (String × Node)) (f t : String) (e : Edge) :
    stopEdge (appendChild ns f t) e = stopEdge ns e := by
  unfold stopEdge
  rw [badEdge_appendChild, crashEdge_appendChild]

theorem find?_congr_pred {α : Type} (p q : α → Bool) (l : List α)
    (h : ∀ a, p a = q a) : l.find? p = l.find? q := by
  induction l with
  | nil => rfl
  | cons a rest ih =>
    by_cases ha : p a
    · rw [List.find?_cons_of_pos _ ha, List.find?_cons_of_pos _ ((h a) ▸ ha)]
    · rw [List.find?_cons_of_neg _ ha, List.find?_cons_of_neg _ (by rw [← h a]; exact ha), ih]

theorem checkEdges_spec (es : List Edge) (ns : List (String × Node)) :
    (∀ e, es.find? (stopEdge ns) = some e →
      (badEdge ns e = true → checkEdges es ns = some (.error (edgeErrMsg ns e))) ∧
      (crashEdge ns e = true → checkEdges es ns = none)) ∧
    ((es.find? (stopEdge ns) = none) → ∃ ns', checkEdges es ns = some (.ok ns')) := by
  induction es generalizing ns with
  | nil => exact ⟨fun e he => by simp at he, fun _ => ⟨ns, rfl⟩⟩
  | cons e0 rest ih =>
    cases hf : truthy ns e0.fromId with
    | false =>
      have hbad0 : badEdge ns e0 = true := by simp [badEdge, hf]
      have hstop : stopEdge ns e0 = true := by simp [stopEdge, hbad0]
      have hcr0 : crashEdge ns e0 = false := by simp [crashEdge, hbad0]
      have heq : checkEdges (e0 :: rest) ns = some (.error (edgeErrMsg ns e0)) := by
        unfold checkEdges edgeErrMsg
        rw [hf]
        simp
      refine ⟨fun e he => ?_, fun hn => ?_⟩
      · rw [List.find?_cons_of_pos _ hstop] at he
        cases he
        exact ⟨fun _ => heq, fun hcr => by rw [hcr0] at hcr; cases hcr⟩
      · rw [List.find?_cons_of_pos _ hstop] at hn
        cases hn
    | true =>
      cases ht : truthy ns e0.toId with
      | false =>
        have hbad0 : badEdge ns e0 = true := by simp [badEdge, ht]
        have hstop : stopEdge ns e0 = true := by simp [stopEdge, hbad0]
        have hcr0 : crashEdge ns e0 = false := by simp [crashEdge, hbad0]
        have heq : checkEdges (e0 :: rest) ns = some (.error (edgeErrMsg ns e0)) := by
          unfold checkEdges edgeErrMsg
          rw [hf, ht]
          simp
        refine ⟨fun e he => ?_, fun hn => ?_⟩
        · rw [List.find?_cons_of_pos _ hstop] at he
          cases he
          exact ⟨fun _ => heq, fun hcr => by rw [hcr0] at hcr; cases hcr⟩
        · rw [List.find?_cons_of_pos _ hstop] at hn
          cases hn
      | true =>
        have hbad0 : badEdge ns e0 = false := by simp [badEdge, hf, ht]
        cases ho : (lookupNode ns e0.fromId).isNone with
        | true =>
          have hcr0 : crashEdge ns e0 = true := by simp [crashEdge, hbad0, ho]
          have hstop : stopEdge ns e0 = true := by simp [stopEdge, hcr0]
          have heq : checkEdges (e0 :: rest) ns = none := by
            unfold checkEdges
            rw [hf, ht, ho]
            simp
          refine ⟨fun e he => ?_, fun hn => ?_⟩
          · rw [List.find?_cons_of_pos _ hstop] at he
            cases he
            refine ⟨fun hbad => ?_, fun _ => heq⟩
            rw [hbad0] at hbad
            cases hbad
          · rw [List.find?_cons_of_pos _ hstop] at hn
            cases hn
        | false =>
          have hcr0 : crashEdge ns e0 = false := by simp [crashEdge, ho]
          have hstop : stopEdge ns e0 = false := by simp [stopEdge, hbad0, hcr0]
          have hstep : checkEdges (e0 :: rest) ns =
              checkEdges rest (appendChild ns e0.fromId e0.toId) := by
            conv_lhs => rw [checkEdges]
            rw [hf, ht, ho]
            simp
          have hrw : rest.find? (stopEdge (appendChild ns e0.fromId e0.toId)) =
              rest.find? (stopEdge ns) :=
            find?_congr_pred _ _ rest (stopEdge_appendChild ns e0.fromId e0.toId)
          refine ⟨fun e he => ?_, fun hn => ?_⟩
          · rw [List.find?_cons_of_neg _ (by simp [hstop])] at he
            have hee := (ih (appendChild ns e0.fromId e0.toId)).1 e (by rw [hrw]; exact he)
            refine ⟨fun hbad => ?_, fun hcr => ?_⟩
            · rw [hstep, hee.1 (by rw [badEdge_appendChild]; exact hbad)]
              unfold edgeErrMsg
              rw [truthy_appendChild]
            · rw [hstep]
              exact hee.2 (by rw [crashEdge_appendChild]; exact hcr)
          · rw [List.find?_cons_of_neg _ (by simp [hstop])] at hn
            rw [hstep]
            exact (ih _).2 (by rw [hrw]; exact hn)

/-- C5 (amended): the first error of the top-to-bottom line scan is
what `parse` returns, before any edge-reference check; after a fully
successful scan the edges are processed in declaration order up to the
first edge that stops the loop — if that edge fails a truthy check the
returned error names its `from` endpoint when that endpoint is not
truthy (checked before `to`), and if both endpoints are truthy but
`from` is an inherited `Object.prototype` name rather than a declared
node, `parse` throws a `TypeError` instead of returning an error; when
no edge stops the loop the validation succeeds.  (As frozen — with
unknown-node errors for every undeclared endpoint — the claim is
refuted: see the counterexample.) -/
theorem c5_error_order (text : String) :
    (∀ e, scanLines (splitNL text.toList) 0 [] [] = .error e →
      parse text = some (.error e)) ∧
    (∀ ns es edge, scanLines (splitNL text.toList) 0 [] [] = .ok (ns, es) →
      es.find? (stopEdge ns) = some edge →
      (badEdge ns edge = true → parse text = some (.error (edgeErrMsg ns edge))) ∧
      (crashEdge ns edge = true → parse text = none)) ∧
    (∀ ns es, scanLines (splitNL text.toList) 0 [] [] = .ok (ns, es) →
      es.find? (stopEdge ns) = none → ∃ ns', checkEdges es ns = some (.ok ns')) ∧
    (∀ ns edge, truthy ns edge.fromId = false →
      edgeErrMsg ns edge = "Line " ++ toString edge.line ++ ": Unknown Node \"" ++
        edge.fromId ++ "\"") ∧
    (∀ ns edge, truthy ns edge.fromId = true →
      edgeErrMsg ns edge = "Line " ++ toString edge.line ++ ": unknown node \"" ++
        edge.toId ++ "\"") := by
  refine ⟨fun e h => ?_, fun ns es edge hscan hfind => ?_, fun ns es hscan hfind => ?_,
    fun ns edge h => ?_, fun ns edge h => ?_⟩
  · unfold parse
    simp only [h]
  · have hspec := (checkEdges_spec es ns).1 edge hfind
    constructor
    · intro hbad
      unfold parse
      simp only [hscan, hspec.1 hbad]
    · intro hcr
      unfold parse
      simp only [hscan, hspec.2 hcr]
  · exact (checkEdges_spec es ns).2 hfind
  · unfold edgeErrMsg
    rw [if_pos (by simp [h])]
  · unfold edgeErrMsg
    rw [if_neg (by simp [h])]

/-- Counterexample for C5 as frozen: `toString` names an inherited
`Object.prototype` property, so its very first declaration is rejected
as a duplicate — an error the claim's line-scan taxonomy cannot
produce for this text — and as an undeclared edge source it passes the
truthy `from` check and `parse` throws a `TypeError` (`none`) instead
of returning the `Unknown Node "toString"` error the claim predicts
(`toString` is not an own key of the node dictionary). -/
theorem c5_counterexample :
    parse "node toString \"x\"" =
      some (.error "Line 1: Duplicate Node id \"toString\"") ∧
    parse "node A \"t\"\nedge toString -> A" = none ∧
    (lookupNode [("A", { id := "A", title := "t", children := [] })] "toString").isNone
      = true := by
  decide

/-! ### C4: root selection and the `No Nodes Defined` error -/

theorem scanLines_extends (lines : List (List Char)) :
    ∀ n ns es ns' es', scanLines lines n ns es = .ok (ns', es') →
      ∃ ns2 es2, ns' = ns ++ ns2 ∧ es' = es ++ es2 := by
  induction lines with
  | nil =>
    intro n ns es ns' es' h
    cases h
    exact ⟨[], [], by simp, by simp⟩
  | cons raw rest ih =>
    intro n ns es ns' es' h
    unfold scanLines at h
    by_cases hb : (trimLine raw).isEmpty
    · rw [if_pos hb] at h
      exact ih _ _ _ _ _ h
    · rw [if_neg hb] at h
      by_cases hn : startsWithNode (trimLine raw)
      · rw [if_pos hn] at h
        cases hm : matchNode (trimLine raw) with
        | none => rw [hm] at h; cases h
        | some p =>
          obtain ⟨pid, ptitle⟩ := p
          simp only [hm] at h
          by_cases hd : truthy ns pid
          · rw [if_pos hd] at h; cases h
          · rw [if_neg hd] at h
            obtain ⟨ns2, es2, h1, h2⟩ := ih _ _ _ _ _ h
            refine ⟨(pid, Node.mk pid (if ptitle = "" then pid else ptitle) []) :: ns2,
              es2, ?_, h2⟩
            rw [h1]
            simp
      · rw [if_neg hn] at h
        by_cases he : startsWithEdge (trimLine raw)
        · rw [if_pos he] at h
          cases hm : matchEdge (trimLine raw) with
          | none => rw [hm] at h; cases h
          | some p =>
            obtain ⟨pf, pt⟩ := p
            simp only [hm] at h
            obtain ⟨ns2, es2, h1, h2⟩ := ih _ _ _ _ _ h
            refine ⟨ns2, Edge.mk pf pt (n + 1) :: es2, h1, ?_⟩
            rw [h2]
            simp
        · rw [if_neg he] at h; cases h

theorem scanLines_all_blank (lines : List (List Char)) :
    ∀ n ns es, (∀ l ∈ lines, trimLine l = []) →
      scanLines lines n ns es = .ok (ns, es) := by
  induction lines with
  | nil => intro n ns es _; rfl
  | cons raw rest ih =>
    intro n ns es h
    have hb : (trimLine raw).isEmpty := by
      rw [h raw (by simp)]; rfl
    unfold scanLines
    rw [if_pos hb]
    exact ih _ _ _ (fun l hl => h l (by simp [hl]))

theorem scanLines_ok_nil (lines : List (List Char)) :
    ∀ n ns es, scanLines lines n ns es = .ok ([], []) →
      ns = [] ∧ es = [] ∧ ∀ l ∈ lines, trimLine l = [] := by
  induction lines with
  | nil =>
    intro n ns es h
    cases h
    exact ⟨rfl, rfl, by simp⟩
  | cons raw rest ih =>
    intro n ns es h
    unfold scanLines at h
    by_cases hb : (trimLine raw).isEmpty
    · rw [if_pos hb] at h
      obtain ⟨h1, h2, h3⟩ := ih _ _ _ h
      refine ⟨h1, h2, ?_⟩
      intro l hl
      rcases List.mem_cons.mp hl with hl | hl
      · subst hl; exact List.isEmpty_iff.mp hb
      · exact h3 l hl
    · rw [if_neg hb] at h
      exfalso
      by_cases hn : startsWithNode (trimLine raw)
      · rw [if_pos hn] at h
        cases hm : matchNode (trimLine raw) with
        | none => rw [hm] at h; cases h
        | some p =>
          obtain ⟨pid, ptitle⟩ := p
          simp only [hm] at h
          by_cases hd : truthy ns pid
          · rw [if_pos hd] at h; cases h
          · rw [if_neg hd] at h
            obtain ⟨ns2, es2, h1, _⟩ := scanLines_extends rest _ _ _ _ _ h
            simp at h1
      · rw [if_neg hn] at h
        by_cases he : startsWithEdge (trimLine raw)
        · rw [if_pos he] at h
          cases hm : matchEdge (trimLine raw) with
          | none => rw [hm] at h; cases h
          | some p =>
            obtain ⟨pf, pt⟩ := p
            simp only [hm] at h
            obtain ⟨ns2, es2, _, h2⟩ := scanLines_extends rest _ _ _ _ _ h
            simp at h2
        · rw [if_neg he] at h; cases h

theorem keysOf_appendChild (ns : List (String × Node)) (f t : String) :
    keysOf (appendChild ns f t) = keysOf ns := by
  unfold keysOf appendChild
  rw [List.map_map]
  apply List.map_congr_left
  intro p _
  by_cases hf : p.1 = f <;> simp [hf]

theorem keysOf_checkEdges (es : List Edge) :
    ∀ ns ns', checkEdges es ns = some (.ok ns') → keysOf ns' = keysOf ns := by
  induction es with
  | nil => intro ns ns' h; cases h; rfl
  | cons e rest ih =>
    intro ns ns' h
    unfold checkEdges at h
    cases hf : truthy ns e.fromId with
    | false => rw [hf] at h; simp at h
    | true =>
      rw [hf] at h
      cases ht : truthy ns e.toId with
      | false => rw [ht] at h; simp at h
      | true =>
        rw [ht] at h
        cases ho : (lookupNode ns e.fromId).isNone with
        | true => rw [ho] at h; simp at h
        | false =>
          rw [ho] at h
          simp only [Bool.not_true, Bool.false_eq_true, if_false] at h
          rw [ih _ _ h, keysOf_appendChild]

theorem insertByVal_ne_nil (k : String) (l : List String) : insertByVal k l ≠ [] := by
  cases l with
  | nil => simp [insertByVal]
  | cons x xs =>
    unfold insertByVal
    by_cases h : strToNat k < strToNat x
    · simp [h]
    · simp [h]

theorem sortByVal_eq_nil {l : List String} (h : sortByVal l = []) : l = [] := by
  cases l with
  | nil => rfl
  | cons x xs =>
    unfold sortByVal at h
    exact absurd h (insertByVal_ne_nil x (sortByVal xs))

theorem jsKeys_nil {ns : List (String × Node)} (h : jsKeys ns = []) : keysOf ns = [] := by
  unfold jsKeys at h
  rw [List.append_eq_nil] at h
  obtain ⟨h1, h2⟩ := h
  have hf1 : (keysOf ns).filter isArrayIndex = [] := sortByVal_eq_nil h1
  cases hk : keysOf ns with
  | nil => rfl
  | cons x xs =>
    exfalso
    rw [hk] at hf1 h2
    by_cases hx : isArrayIndex x
    · rw [List.filter_cons_of_pos hx] at hf1
      cases hf1
    · rw [List.filter_cons_of_pos (by simp [hx])] at h2
      cases h2

theorem scanLines_error_line (lines : List (List Char)) :
    ∀ n ns es e, scanLines lines n ns es = .error e → ∃ s, e = "Line " ++ s := by
  induction lines with
  | nil => intro n ns es e h; cases h
  | cons raw rest ih =>
    intro n ns es e h
    unfold scanLines at h
    by_cases hb : (trimLine raw).isEmpty
    · rw [if_pos hb] at h; exact ih _ _ _ _ h
    · rw [if_neg hb] at h
      by_cases hn : startsWithNode (trimLine raw)
      · rw [if_pos hn] at h
        cases hm : matchNode (trimLine raw) with
        | none =>
          rw [hm] at h
          cases h
          exact ⟨_, by rw [String.append_assoc]⟩
        | some p =>
          obtain ⟨pid, ptitle⟩ := p
          simp only [hm] at h
          by_cases hd : truthy ns pid
          · rw [if_pos hd] at h
            cases h
            exact ⟨_, by rw [String.append_assoc, String.append_assoc, String.append_assoc]⟩
          · rw [if_neg hd] at h; exact ih _ _ _ _ h
      · rw [if_neg hn] at h
        by_cases he : startsWithEdge (trimLine raw)
        · rw [if_pos he] at h
          cases hm : matchEdge (trimLine raw) with
          | none =>
            rw [hm] at h
            cases h
            exact ⟨_, by rw [String.append_assoc]⟩
          | some p =>
            obtain ⟨pf, pt⟩ := p
            simp only [hm] at h
            exact ih _ _ _ _ h
        · rw [if_neg he] at h
          cases h
          exact ⟨_, by rw [String.append_assoc]⟩

theorem checkEdges_error_line (es : List Edge) :
    ∀ ns e, checkEdges es ns = some (.error e) → ∃ s, e = "Line " ++ s := by
  induction es with
  | nil => intro ns e h; simp [checkEdges] at h
  | cons e0 rest ih =>
    intro ns e h
    unfold checkEdges at h
    cases hf : truthy ns e0.fromId with
    | false =>
      rw [hf] at h
      simp only [Bool.not_false, if_true, Option.some.injEq, Except.error.injEq] at h
      exact ⟨_, by rw [← h, String.append_assoc, String.append_assoc, String.append_assoc]⟩
    | true =>
      rw [hf] at h
      cases ht : truthy ns e0.toId with
      | false =>
        rw [ht] at h
        simp only [Bool.not_true, Bool.not_false, Bool.false_eq_true, if_false, if_true,
          Option.some.injEq, Except.error.injEq] at h
        exact ⟨_, by rw [← h, String.append_assoc, String.append_assoc, String.append_assoc]⟩
      | true =>
        rw [ht] at h
        cases ho : (lookupNode ns e0.fromId).isNone with
        | true => rw [ho] at h; simp at h
        | false =>
          rw [ho] at h
          simp only [Bool.not_true, Bool.false_eq_true, if_false] at h
          exact ih _ _ h

theorem line_ne_noNodes (s : String) : "Line " ++ s ≠ "No Nodes Defined" := by
  intro h
  have := congrArg String.data h
  rw [String.data_append] at this
  simp at this

/-- C4 (amended): for every successfully parsed text the root is the
first id in `Object.keys` enumeration order — array-index ids first in
ascending numeric order, then the remaining ids in declaration order —
that is never an edge target, else the first id in that order (and at
least one node exists); it is NOT in general the first id in
declaration order.  Parsing a text with zero declared nodes always
fails, but the error reads `No Nodes Defined` exactly when every line
is blank — an edge over undeclared nodes fails with an unknown-node
error (or throws) instead. -/
theorem c4_root_selection (text : String) :
    (∀ m, parse text = some (.ok m) →
      jsKeys m.nodes ≠ [] ∧
      m.root = ((jsKeys m.nodes).find? (fun id =>
          !((m.edges.map (·.toId)).contains id))).getD ((jsKeys m.nodes).headD "")) ∧
    (parse text = some (.error "No Nodes Defined") ↔
      ∀ l ∈ splitNL text.toList, trimLine l = []) := by
  constructor
  · intro m hok
    unfold parse at hok
    cases hscan : scanLines (splitNL text.toList) 0 [] [] with
    | error e => simp only [hscan] at hok; cases hok
    | ok p =>
      obtain ⟨ns0, es⟩ := p
      simp only [hscan] at hok
      cases hck : checkEdges es ns0 with
      | none => simp only [hck] at hok; cases hok
      | some r0 =>
        cases r0 with
        | error e => simp only [hck] at hok; cases hok
        | ok ns =>
          simp only [hck] at hok
          cases hfind : (jsKeys ns).find? (fun id => !((es.map (·.toId)).contains id)) with
          | some r =>
            simp only [hfind] at hok
            cases hok
            refine ⟨?_, ?_⟩
            · intro hnil
              have hmem := List.mem_of_find?_eq_some hfind
              rw [hnil] at hmem
              cases hmem
            · simp only [hfind, Option.getD_some]
          | none =>
            simp only [hfind] at hok
            cases hkeys : jsKeys ns with
            | nil => simp only [hkeys] at hok; cases hok
            | cons r ks =>
              simp only [hkeys] at hok
              cases hok
              rw [hkeys] at hfind
              exact ⟨by simp [hkeys],
                by simp only [hkeys, hfind, Option.getD_none, List.headD_cons]⟩
  · constructor
    · intro h
      unfold parse at h
      cases hscan : scanLines (splitNL text.toList) 0 [] [] with
      | error e =>
        simp only [hscan] at h
        cases h
        obtain ⟨s, hs⟩ := scanLines_error_line _ _ _ _ _ hscan
        exact absurd hs.symm (line_ne_noNodes s)
      | ok p =>
        obtain ⟨ns0, es⟩ := p
        simp only [hscan] at h
        cases hck : checkEdges es ns0 with
        | none => simp only [hck] at h; cases h
        | some r0 =>
          cases r0 with
          | error e =>
            simp only [hck] at h
            cases h
            obtain ⟨s, hs⟩ := checkEdges_error_line _ _ _ hck
            exact absurd hs.symm (line_ne_noNodes s)
          | ok ns =>
            simp only [hck] at h
            cases hfind : (jsKeys ns).find? (fun id => !((es.map (·.toId)).contains id)) with
            | some r => rw [hfind] at h; cases h
            | none =>
              simp only [hfind] at h
              cases hkeys : jsKeys ns with
              | cons r ks => simp only [hkeys] at h; cases h
              | nil =>
                have hko : keysOf ns = [] := jsKeys_nil hkeys
                have hns0 : ns0 = [] := by
                  have := keysOf_checkEdges es ns0 ns hck
                  rw [hko] at this
                  unfold keysOf at this
                  exact List.map_eq_nil_iff.mp this.symm
                subst hns0
                have hes : es = [] := by
                  cases es with
                  | nil => rfl
                  | cons e0 rest =>
                    exfalso
                    unfold checkEdges at hck
                    cases h1 : truthy [] e0.fromId with
                    | false => rw [h1] at hck; simp at hck
                    | true =>
                      rw [h1] at hck
                      cases h2 : truthy [] e0.toId with
                      | false => rw [h2] at hck; simp at hck
                      | true =>
                        rw [h2] at hck
                        simp [lookupNode] at hck
                subst hes
                exact (scanLines_ok_nil _ _ _ _ hscan).2.2
    · intro hblank
      have hscan := scanLines_all_blank (splitNL text.toList) 0 [] [] hblank
      unfold parse
      rw [hscan]
      rfl

/-- Counterexample for C4 as frozen (and as previously amended to
declaration order): with the numeric ids `2` then `1`, `Object.keys`
enumerates `["1", "2"]` — array-index keys ascending — so the program
roots the flowchart at `1`, not at the first-declared `2`; and
`"edge a -> b"` declares zero nodes, yet its parse error is the
unknown-node message for `a`, not `No Nodes Defined`. -/
theorem c4_counterexample :
    parse "node 2 \"b\"\nnode 1 \"a\"" = some (.ok
      { nodes := [("2", { id := "2", title := "b", children := [] }),
                  ("1", { id := "1", title := "a", children := [] })],
        edges := [], root := "1" }) ∧
    keysOf [("2", { id := "2", title := "b", children := [] }),
            ("1", { id := "1", title := "a", children := [] })] = ["2", "1"] ∧
    ("1" : String) ≠ "2" ∧
    parse "edge a -> b" = some (.error "Line 1: Unknown Node \"a\"") ∧
    scanLines (splitNL "edge a -> b".toList) 0 [] [] =
      .ok ([], [{ fromId := "a", toId := "b", line := 1 }]) ∧
    ("Line 1: Unknown Node \"a\"" : String) ≠ "No Nodes Defined" := by
  decide

/-! ### C1: termination of parse and layout -/

theorem stepVis_mem_keys (c : List String) (nodes : List (String × Node))
    (hclosed : ∀ p ∈ nodes, ∀ ch ∈ p.2.children, ch ∈ keysOf nodes)
    {a b : String} (h : stepVis c nodes a b) : b ∈ keysOf nodes := by
  unfold stepVis visibleChildren at h
  by_cases hc : c.contains a
  · rw [if_pos hc] at h; cases h
  · rw [if_neg hc] at h
    cases hl : lookupNode nodes a with
    | none => rw [hl] at h; cases h
    | some n =>
      rw [hl] at h
      unfold lookupNode at hl
      cases hf : nodes.find? (fun p => p.1 = a) with
      | none => rw [hf] at hl; cases hl
      | some p =>
        rw [hf] at hl
        have hp : p ∈ nodes := List.mem_of_find?_eq_some hf
        injection hl with hl
        subst hl
        exact hclosed p hp b h

theorem reach_mem_keys (c : List String) (nodes : List (String × Node))
    (hclosed : ∀ p ∈ nodes, ∀ ch ∈ p.2.children, ch ∈ keysOf nodes)
    {a b : String} (ha : a ∈ keysOf nodes) (h : ReachVis c nodes a b) :
    b ∈ keysOf nodes := by
  induction h with
  | refl => exact ha
  | tail _ hstep _ => exact stepVis_mem_keys c nodes hclosed hstep

theorem firstPassFuel_mono (c : List String) (nodes : List (String × Node)) :
    ∀ fuel fuel', fuel ≤ fuel' →
      ∀ x d st st', firstPassFuel c nodes fuel x d st = some st' →
        firstPassFuel c nodes fuel' x d st = some st' := by
  intro fuel
  induction fuel with
  | zero =>
    intro fuel' _ x d st st' h
    simp only [firstPassFuel] at h
    cases h
  | succ n ih =>
    intro fuel' hle x d st st' h
    obtain ⟨m, rfl⟩ : ∃ m, fuel' = m + 1 := ⟨fuel' - 1, by omega⟩
    have hnm : n ≤ m := by omega
    have gomono : ∀ ks d0 s0 s1, goKids (firstPassFuel c nodes n) ks d0 s0 = some s1 →
        goKids (firstPassFuel c nodes m) ks d0 s0 = some s1 := by
      intro ks
      induction ks with
      | nil => intro d0 s0 s1 hgk; exact hgk
      | cons k kr ihk =>
        intro d0 s0 s1 hgk
        simp only [goKids] at hgk ⊢
        cases hfp : firstPassFuel c nodes n k d0 s0 with
        | none => rw [hfp] at hgk; cases hgk
        | some s2 =>
          rw [hfp] at hgk
          rw [ih m hnm k d0 s0 s2 hfp]
          exact ihk d0 s2 s1 hgk
    by_cases hk : (visibleChildren c nodes x).isEmpty
    · simp only [firstPassFuel, hk, if_true] at h ⊢
      exact h
    · have hk' : (visibleChildren c nodes x).isEmpty = false := by
        rwa [Bool.not_eq_true] at hk
      simp only [firstPassFuel, hk', Bool.false_eq_true, if_false] at h ⊢
      cases hgo : goKids (firstPassFuel c nodes n) (visibleChildren c nodes x) (d + 1)
          { st with depth := setEntry st.depth x d } with
      | none => rw [hgo] at h; cases h
      | some st2 =>
        rw [hgo] at h
        rw [gomono _ _ _ _ hgo]
        exact h

theorem dfsFuel_mono (c : List String) (nodes : List (String × Node)) :
    ∀ fuel fuel', fuel ≤ fuel' →
      ∀ x vis vis', dfsFuel c nodes fuel x vis = some vis' →
        dfsFuel c nodes fuel' x vis = some vis' := by
  intro fuel
  induction fuel with
  | zero =>
    intro fuel' _ x vis vis' h
    simp only [dfsFuel] at h
    cases h
  | succ n ih =>
    intro fuel' hle x vis vis' h
    obtain ⟨m, rfl⟩ : ∃ m, fuel' = m + 1 := ⟨fuel' - 1, by omega⟩
    have hnm : n ≤ m := by omega
    have gomono : ∀ ks v0 v1, dfsKids (dfsFuel c nodes n) ks v0 = some v1 →
        dfsKids (dfsFuel c nodes m) ks v0 = some v1 := by
      intro ks
      induction ks with
      | nil => intro v0 v1 hgk; exact hgk
      | cons k kr ihk =>
        intro v0 v1 hgk
        simp only [dfsKids] at hgk ⊢
        cases hfp : dfsFuel c nodes n k v0 with
        | none => rw [hfp] at hgk; cases hgk
        | some v2 =>
          rw [hfp] at hgk
          rw [ih m hnm k v0 v2 hfp]
          exact ihk v2 v1 hgk
    by_cases hv : vis.contains x
    · simp only [dfsFuel, hv, if_true] at h ⊢
      exact h
    · have hv' : vis.contains x = false := by rwa [Bool.not_eq_true] at hv
      simp only [dfsFuel, hv', Bool.false_eq_true, if_false] at h ⊢
      exact gomono _ _ _ h

theorem cyc_firstPass_none :
    ∀ fuel d st, firstPassFuel [] cycModel.nodes fuel "A" d st = none := by
  intro fuel
  induction fuel with
  | zero => intro d st; simp only [firstPassFuel]
  | succ n ih =>
    intro d st
    have hkids : visibleChildren [] cycModel.nodes "A" = ["A"] := by decide
    simp only [firstPassFuel, hkids, List.isEmpty_cons, Bool.false_eq_true, if_false,
      goKids, ih]

theorem cyc_layout_none : ∀ fuel, layoutTree fuel cycModel [] = none := by
  intro fuel
  unfold layoutTree
  rw [show cycModel.root = "A" from rfl, cyc_firstPass_none]

/-- Counterexample for C1 as frozen: the parser accepts a self-edge
(`edge A -> A`), and on the resulting model the layout's positioning
pass `firstPass` recurses forever (no fuel suffices): the revisit guard
protects only the visible-set DFS, not `firstPass`. -/
theorem c1_counterexample :
    parse "node A \"a\"\nedge A -> A" = some (.ok cycModel) ∧
    ¬ ∃ fuel out, layoutTree fuel cycModel [] = some out := by
  constructor
  · decide
  · rintro ⟨fuel, out, h⟩
    rw [cyc_layout_none] at h
    cases h

theorem firstPassFuel_isSome_mono (c : List String) (nodes : List (String × Node))
    {n n' : Nat} (h : n ≤ n') (x : String) (d : Nat) (st : PassState)
    (hs : (firstPassFuel c nodes n x d st).isSome) :
    (firstPassFuel c nodes n' x d st).isSome := by
  obtain ⟨st', hst'⟩ := Option.isSome_iff_exists.mp hs
  rw [firstPassFuel_mono c nodes n n' h x d st st' hst']
  rfl

theorem dfsFuel_isSome_mono (c : List String) (nodes : List (String × Node))
    {n n' : Nat} (h : n ≤ n') (x : String) (vis : List String)
    (hs : (dfsFuel c nodes n x vis).isSome) :
    (dfsFuel c nodes n' x vis).isSome := by
  obtain ⟨v', hv'⟩ := Option.isSome_iff_exists.mp hs
  rw [dfsFuel_mono c nodes n n' h x vis v' hv']
  rfl

theorem reachSet_finite (c : List String) (nodes : List (String × Node)) (root : String)
    (hclosed : ∀ p ∈ nodes, ∀ ch ∈ p.2.children, ch ∈ keysOf nodes) :
    {x | ReachVis c nodes root x}.Finite := by
  have hsub1 : {x | ReachVis c nodes root x} ⊆ {root} ∪ {x | x ∈ keysOf nodes} := by
    intro x hx
    cases (Relation.ReflTransGen.cases_head hx) with
    | inl h => exact Or.inl (by simp [h.symm])
    | inr h =>
      obtain ⟨k, hstep, hrest⟩ := h
      exact Or.inr (reach_mem_keys c nodes hclosed
        (stepVis_mem_keys c nodes hclosed hstep) hrest)
  exact Set.Finite.subset ((Set.finite_singleton root).union
    (keysOf nodes).finite_toSet) hsub1

theorem uniform_fp_bound (c : List String) (nodes : List (String × Node)) :
    ∀ ks : List String,
      (∀ k ∈ ks, ∃ n, ∀ d st, (firstPassFuel c nodes n k d st).isSome) →
      ∃ N, ∀ k ∈ ks, ∀ d st, (firstPassFuel c nodes N k d st).isSome := by
  intro ks
  induction ks with
  | nil => exact fun _ => ⟨0, by simp⟩
  | cons k kr ih =>
    intro h
    obtain ⟨n1, h1⟩ := h k (by simp)
    obtain ⟨N, hN⟩ := ih (fun k0 hk0 => h k0 (by simp [hk0]))
    refine ⟨max n1 N, fun k0 hk0 d st => ?_⟩
    rcases List.mem_cons.mp hk0 with rfl | hk0
    · exact firstPassFuel_isSome_mono c nodes (le_max_left n1 N) k0 d st (h1 d st)
    · exact firstPassFuel_isSome_mono c nodes (le_max_right n1 N) k0 d st (hN k0 hk0 d st)

theorem uniform_dfs_bound (c : List String) (nodes : List (String × Node)) :
    ∀ ks : List String,
      (∀ k ∈ ks, ∃ n, ∀ vis, (dfsFuel c nodes n k vis).isSome) →
      ∃ N, ∀ k ∈ ks, ∀ vis, (dfsFuel c nodes N k vis).isSome := by
  intro ks
  induction ks with
  | nil => exact fun _ => ⟨0, by simp⟩
  | cons k kr ih =>
    intro h
    obtain ⟨n1, h1⟩ := h k (by simp)
    obtain ⟨N, hN⟩ := ih (fun k0 hk0 => h k0 (by simp [hk0]))
    refine ⟨max n1 N, fun k0 hk0 vis => ?_⟩
    rcases List.mem_cons.mp hk0 with rfl | hk0
    · exact dfsFuel_isSome_mono c nodes (le_max_left n1 N) k0 vis (h1 vis)
    · exact dfsFuel_isSome_mono c nodes (le_max_right n1 N) k0 vis (hN k0 hk0 vis)

theorem exists_fuel_firstPass (c : List String) (nodes : List (String × Node))
    (root : String)
    (hclosed : ∀ p ∈ nodes, ∀ ch ∈ p.2.children, ch ∈ keysOf nodes)
    (hacyc : ∀ x, ReachVis c nodes root x →
      ¬ Relation.TransGen (stepVis c nodes) x x) :
    ∀ x, ReachVis c nodes root x →
      ∃ n, ∀ d st, (firstPassFuel c nodes n x d st).isSome := by
  haveI hsub : Finite {x : String // ReachVis c nodes root x} :=
    (reachSet_finite c nodes root hclosed).to_subtype
  let r : {x : String // ReachVis c nodes root x} →
      {x : String // ReachVis c nodes root x} → Prop :=
    fun a b => Relation.TransGen (stepVis c nodes) b.val a.val
  haveI : IsTrans _ r := ⟨fun _ _ _ hab hbc => hbc.trans hab⟩
  haveI : IsIrrefl _ r := ⟨fun a h => hacyc a.val a.property h⟩
  have wf : WellFounded r := Finite.wellFounded_of_trans_of_irrefl r
  have main : ∀ s : {x : String // ReachVis c nodes root x},
      ∃ n, ∀ d st, (firstPassFuel c nodes n s.val d st).isSome := by
    intro s
    refine @WellFounded.induction _ r wf
      (fun s => ∃ n, ∀ d st, (firstPassFuel c nodes n s.val d st).isSome = true) s ?_
    intro t IH
    by_cases hk : (visibleChildren c nodes t.val).isEmpty
    · exact ⟨1, fun d st => by simp [firstPassFuel, hk]⟩
    · have hkids : ∀ k ∈ visibleChildren c nodes t.val,
          ∃ n, ∀ d st, (firstPassFuel c nodes n k d st).isSome := by
        intro k hkmem
        have hstep : stepVis c nodes t.val k := hkmem
        exact IH ⟨k, Relation.ReflTransGen.tail t.property hstep⟩
          (Relation.TransGen.single hstep)
      obtain ⟨N, hN⟩ := uniform_fp_bound c nodes _ hkids
      refine ⟨N + 1, fun d st => ?_⟩
      have hgo : ∀ ks, (∀ k ∈ ks, ∀ d0 s0, (firstPassFuel c nodes N k d0 s0).isSome) →
          ∀ d0 s0, (goKids (firstPassFuel c nodes N) ks d0 s0).isSome := by
        intro ks
        induction ks with
        | nil => intro _ d0 s0; simp [goKids]
        | cons k kr ihk =>
          intro hall d0 s0
          simp only [goKids]
          cases hfp : firstPassFuel c nodes N k d0 s0 with
          | none =>
            have := hall k (by simp) d0 s0
            rw [hfp] at this
            cases this
          | some s2 => exact ihk (fun k1 hk1 => hall k1 (by simp [hk1])) d0 s2
      have hk' : (visibleChildren c nodes t.val).isEmpty = false := by
        rwa [Bool.not_eq_true] at hk
      simp only [firstPassFuel, hk', Bool.false_eq_true, if_false]
      cases hgo2 : goKids (firstPassFuel c nodes N) (visibleChildren c nodes t.val)
          (d + 1) { st with depth := setEntry st.depth t.val d } with
      | none =>
        have := hgo _ hN (d + 1) { st with depth := setEntry st.depth t.val d }
        rw [hgo2] at this
        cases this
      | some st2 => simp
  exact fun x hx => main ⟨x, hx⟩

theorem exists_fuel_dfs (c : List String) (nodes : List (String × Node))
    (root : String)
    (hclosed : ∀ p ∈ nodes, ∀ ch ∈ p.2.children, ch ∈ keysOf nodes)
    (hacyc : ∀ x, ReachVis c nodes root x →
      ¬ Relation.TransGen (stepVis c nodes) x x) :
    ∀ x, ReachVis c nodes root x →
      ∃ n, ∀ vis, (dfsFuel c nodes n x vis).isSome := by
  haveI hsubt : Finite {x : String // ReachVis c nodes root x} :=
    (reachSet_finite c nodes root hclosed).to_subtype
  let r : {x : String // ReachVis c nodes root x} →
      {x : String // ReachVis c nodes root x} → Prop :=
    fun a b => Relation.TransGen (stepVis c nodes) b.val a.val
  haveI : IsTrans _ r := ⟨fun _ _ _ hab hbc => hbc.trans hab⟩
  haveI : IsIrrefl _ r := ⟨fun a h => hacyc a.val a.property h⟩
  have wf : WellFounded r := Finite.wellFounded_of_trans_of_irrefl r
  have main : ∀ s : {x : String // ReachVis c nodes root x},
      ∃ n, ∀ vis, (dfsFuel c nodes n s.val vis).isSome := by
    intro s
    refine @WellFounded.induction _ r wf
      (fun s => ∃ n, ∀ vis, (dfsFuel c nodes n s.val vis).isSome = true) s ?_
    intro t IH
    have hkids : ∀ k ∈ visibleChildren c nodes t.val,
        ∃ n, ∀ vis, (dfsFuel c nodes n k vis).isSome := by
      intro k hkmem
      have hstep : stepVis c nodes t.val k := hkmem
      exact IH ⟨k, Relation.ReflTransGen.tail t.property hstep⟩
        (Relation.TransGen.single hstep)
    obtain ⟨N, hN⟩ := uniform_dfs_bound c nodes _ hkids
    refine ⟨N + 1, fun vis => ?_⟩
    by_cases hv : vis.contains t.val
    · have hmem : t.val ∈ vis := by simpa using hv
      simp [dfsFuel, hmem]
    · have hgo : ∀ ks, (∀ k ∈ ks, ∀ v0, (dfsFuel c nodes N k v0).isSome) →
          ∀ v0, (dfsKids (dfsFuel c nodes N) ks v0).isSome := by
        intro ks
        induction ks with
        | nil => intro _ v0; simp [dfsKids]
        | cons k kr ihk =>
          intro hall v0
          simp only [dfsKids]
          cases hfp : dfsFuel c nodes N k v0 with
          | none =>
            have := hall k (by simp) v0
            rw [hfp] at this
            cases this
          | some v2 => exact ihk (fun k1 hk1 => hall k1 (by simp [hk1])) v2
      have hv' : vis.contains t.val = false := by rwa [Bool.not_eq_true] at hv
      simp only [dfsFuel, hv', Bool.false_eq_true, if_false]
      exact hgo _ hN (vis ++ [t.val])
  exact fun x hx => main ⟨x, hx⟩

/-- C1 (amended): `parse` is total (in this embedding it is a
structurally recursive function), and `layoutTree` terminates for every
wellformed model and collapse set such that no visible-children cycle
is reachable from the root — in particular for every strict tree.  The
original claim's "even when the model is not a strict tree (e.g. … a
cycle such as an edge from a node to itself)" is false: the revisit
guard protects only the visible-set DFS, and `firstPass` diverges on a
reachable cycle (see the counterexample). -/
theorem c1_layout_terminates (m : Model) (c : List String)
    (hwf : Wellformed m)
    (hacyc : ∀ x, ReachVis c m.nodes m.root x →
      ¬ Relation.TransGen (stepVis c m.nodes) x x) :
    ∃ fuel out, layoutTree fuel m c = some out := by
  obtain ⟨_, hroot, hclosed⟩ := hwf
  obtain ⟨n1, h1⟩ := exists_fuel_firstPass c m.nodes m.root hclosed hacyc m.root .refl
  obtain ⟨n2, h2⟩ := exists_fuel_dfs c m.nodes m.root hclosed hacyc m.root .refl
  refine ⟨max n1 n2, ?_⟩
  have hs1 : (firstPassFuel c m.nodes (max n1 n2) m.root 0
      { xPos := [], xNext := 0, depth := [] }).isSome :=
    firstPassFuel_isSome_mono c m.nodes (le_max_left n1 n2) _ _ _ (h1 0 _)
  have hs2 : (dfsFuel c m.nodes (max n1 n2) m.root []).isSome :=
    dfsFuel_isSome_mono c m.nodes (le_max_right n1 n2) _ _ (h2 [])
  obtain ⟨st, hst⟩ := Option.isSome_iff_exists.mp hs1
  obtain ⟨vis, hvis⟩ := Option.isSome_iff_exists.mp hs2
  unfold layoutTree
  rw [hst, hvis]
  exact ⟨_, rfl⟩

theorem oneNode_no_step : ∀ a b, ¬ stepVis [] oneNodeModel.nodes a b := by
  intro a b h
  unfold stepVis visibleChildren at h
  rw [if_neg (by simp)] at h
  unfold lookupNode oneNodeModel at h
  by_cases ha : ("A" : String) = a
  · rw [List.find?_cons_of_pos _ (by simpa using ha)] at h
    simp at h
  · rw [List.find?_cons_of_neg _ (by simpa using ha)] at h
    simp at h

theorem oneNode_acyclic : ∀ x, ReachVis [] oneNodeModel.nodes oneNodeModel.root x →
    ¬ Relation.TransGen (stepVis [] oneNodeModel.nodes) x x := by
  intro x _ ht
  cases ht with
  | single h => exact oneNode_no_step _ _ h
  | tail _ h => exact oneNode_no_step _ _ h

/-- Witness for C1 at the model of `parse "node A \"a\""`. -/
theorem c1_witness :
    Wellformed oneNodeModel ∧
    ∃ fuel out, layoutTree fuel oneNodeModel [] = some out :=
  ⟨by decide, c1_layout_terminates oneNodeModel [] (by decide) oneNode_acyclic⟩

/-! ### The main structural facts about `firstPass` (any model) -/

theorem fp_main (c : List String) (nodes : List (String × Node)) :
    ∀ fuel,
      (∀ x d st st', firstPassFuel c nodes fuel x d st = some st' →
        (∀ y, (getEntry st.xPos y).isSome → (getEntry st'.xPos y).isSome) ∧
        (∀ y, (getEntry st.depth y).isSome → (getEntry st'.depth y).isSome) ∧
        st.xNext ≤ st'.xNext ∧
        (∀ y, ReachVis c nodes x y →
          (getEntry st'.xPos y).isSome ∧ (getEntry st'.depth y).isSome) ∧
        (∀ y, ¬ ReachVis c nodes x y →
          getEntry st'.xPos y = getEntry st.xPos y ∧
          getEntry st'.depth y = getEntry st.depth y)) ∧
      (∀ ks d st st', goKids (firstPassFuel c nodes fuel) ks d st = some st' →
        (∀ y, (getEntry st.xPos y).isSome → (getEntry st'.xPos y).isSome) ∧
        (∀ y, (getEntry st.depth y).isSome → (getEntry st'.depth y).isSome) ∧
        st.xNext ≤ st'.xNext ∧
        (∀ k ∈ ks, ∀ y, ReachVis c nodes k y →
          (getEntry st'.xPos y).isSome ∧ (getEntry st'.depth y).isSome) ∧
        (∀ y, (∀ k ∈ ks, ¬ ReachVis c nodes k y) →
          getEntry st'.xPos y = getEntry st.xPos y ∧
          getEntry st'.depth y = getEntry st.depth y)) := by
  have gkStep : ∀ fuel,
      (∀ x d st st', firstPassFuel c nodes fuel x d st = some st' →
        (∀ y, (getEntry st.xPos y).isSome → (getEntry st'.xPos y).isSome) ∧
        (∀ y, (getEntry st.depth y).isSome → (getEntry st'.depth y).isSome) ∧
        st.xNext ≤ st'.xNext ∧
        (∀ y, ReachVis c nodes x y →
          (getEntry st'.xPos y).isSome ∧ (getEntry st'.depth y).isSome) ∧
        (∀ y, ¬ ReachVis c nodes x y →
          getEntry st'.xPos y = getEntry st.xPos y ∧
          getEntry st'.depth y = getEntry st.depth y)) →
      (∀ ks d st st', goKids (firstPassFuel c nodes fuel) ks d st = some st' →
        (∀ y, (getEntry st.xPos y).isSome → (getEntry st'.xPos y).isSome) ∧
        (∀ y, (getEntry st.depth y).isSome → (getEntry st'.depth y).isSome) ∧
        st.xNext ≤ st'.xNext ∧
        (∀ k ∈ ks, ∀ y, ReachVis c nodes k y →
          (getEntry st'.xPos y).isSome ∧ (getEntry st'.depth y).isSome) ∧
        (∀ y, (∀ k ∈ ks, ¬ ReachVis c nodes k y) →
          getEntry st'.xPos y = getEntry st.xPos y ∧
          getEntry st'.depth y = getEntry st.depth y)) := by
    intro fuel hfp ks
    induction ks with
    | nil =>
      intro d st st' h
      simp only [goKids] at h
      cases h
      exact ⟨fun _ h => h, fun _ h => h, le_refl _, by simp, fun _ _ => ⟨rfl, rfl⟩⟩
    | cons k kr ih =>
      intro d st st' h
      simp only [goKids] at h
      cases hfpk : firstPassFuel c nodes fuel k d st with
      | none => rw [hfpk] at h; cases h
      | some s2 =>
        rw [hfpk] at h
        obtain ⟨f1, f2, f3, f4, f5⟩ := hfp k d st s2 hfpk
        obtain ⟨g1, g2, g3, g4, g5⟩ := ih d s2 st' h
        refine ⟨fun y hy => g1 y (f1 y hy), fun y hy => g2 y (f2 y hy),
          le_trans f3 g3, ?_, ?_⟩
        · intro k0 hk0 y hy
          rcases List.mem_cons.mp hk0 with rfl | hk0
          · obtain ⟨hx, hd⟩ := f4 y hy
            exact ⟨g1 y hx, g2 y hd⟩
          · exact g4 k0 hk0 y hy
        · intro y hy
          obtain ⟨u1, u2⟩ := f5 y (hy k (by simp))
          obtain ⟨v1, v2⟩ := g5 y (fun k0 hk0 => hy k0 (by simp [hk0]))
          exact ⟨v1.trans u1, v2.trans u2⟩
  intro fuel
  induction fuel with
  | zero =>
    constructor
    · intro x d st st' h
      simp only [firstPassFuel] at h
      cases h
    · exact gkStep 0 (by
        intro x d st st' h
        simp only [firstPassFuel] at h
        cases h)
  | succ n IHn =>
    have fpPart : ∀ x d st st', firstPassFuel c nodes (n + 1) x d st = some st' →
        (∀ y, (getEntry st.xPos y).isSome → (getEntry st'.xPos y).isSome) ∧
        (∀ y, (getEntry st.depth y).isSome → (getEntry st'.depth y).isSome) ∧
        st.xNext ≤ st'.xNext ∧
        (∀ y, ReachVis c nodes x y →
          (getEntry st'.xPos y).isSome ∧ (getEntry st'.depth y).isSome) ∧
        (∀ y, ¬ ReachVis c nodes x y →
          getEntry st'.xPos y = getEntry st.xPos y ∧
          getEntry st'.depth y = getEntry st.depth y) := by
      intro x d st st' h
      by_cases hk : (visibleChildren c nodes x).isEmpty
      · simp only [firstPassFuel, hk, if_true] at h
        cases h
        have hkids : visibleChildren c nodes x = [] := List.isEmpty_iff.mp hk
        refine ⟨fun y hy => getEntry_isSome_setEntry _ _ _ _ hy,
          fun y hy => getEntry_isSome_setEntry _ _ _ _ hy,
          Nat.le_succ _, ?_, ?_⟩
        · intro y hy
          have hyx : y = x := by
            cases (Relation.ReflTransGen.cases_head hy) with
            | inl h0 => exact h0.symm
            | inr h0 =>
              obtain ⟨k0, hstep, _⟩ := h0
              unfold stepVis at hstep
              rw [hkids] at hstep
              cases hstep
          subst hyx
          constructor
          · rw [getEntry_setEntry_self]; rfl
          · rw [getEntry_setEntry_self]; rfl
        · intro y hy
          have hyx : y ≠ x := fun hh => hy (hh ▸ Relation.ReflTransGen.refl)
          exact ⟨getEntry_setEntry_ne _ _ _ _ hyx, getEntry_setEntry_ne _ _ _ _ hyx⟩
      · have hk' : (visibleChildren c nodes x).isEmpty = false := by
          rwa [Bool.not_eq_true] at hk
        simp only [firstPassFuel, hk', Bool.false_eq_true, if_false] at h
        cases hgo : goKids (firstPassFuel c nodes n) (visibleChildren c nodes x)
            (d + 1) { st with depth := setEntry st.depth x d } with
        | none => rw [hgo] at h; cases h
        | some st2 =>
          rw [hgo] at h
          cases h
          obtain ⟨g1, g2, g3, g4, g5⟩ := (gkStep n IHn.1) _ _ _ _ hgo
          refine ⟨?_, ?_, ?_, ?_, ?_⟩
          · intro y hy
            exact getEntry_isSome_setEntry _ _ _ _ (g1 y hy)
          · intro y hy
            exact g2 y (getEntry_isSome_setEntry _ _ _ _ hy)
          · exact g3
          · intro y hy
            cases (Relation.ReflTransGen.cases_head hy) with
            | inl h0 =>
              cases h0
              constructor
              · rw [getEntry_setEntry_self]; rfl
              · exact g2 x (by rw [getEntry_setEntry_self]; rfl)
            | inr h0 =>
              obtain ⟨k0, hstep, hrest⟩ := h0
              have hk0 : k0 ∈ visibleChildren c nodes x := hstep
              obtain ⟨hx, hd⟩ := g4 k0 hk0 y hrest
              exact ⟨getEntry_isSome_setEntry _ _ _ _ hx, hd⟩
          · intro y hy
            have hyx : y ≠ x := fun hh => hy (hh ▸ Relation.ReflTransGen.refl)
            have hnk : ∀ k ∈ visibleChildren c nodes x, ¬ ReachVis c nodes k y := by
              intro k hkmem hky
              exact hy (Relation.ReflTransGen.head hkmem hky)
            obtain ⟨u1, u2⟩ := g5 y hnk
            refine ⟨?_, ?_⟩
            · rw [getEntry_setEntry_ne _ _ _ _ hyx, u1]
            · rw [u2, getEntry_setEntry_ne _ _ _ _ hyx]
    exact ⟨fpPart, gkStep (n + 1) fpPart⟩

/-! ### The visible-set DFS computes exactly the reachable ids -/

theorem dfs_main (c : List String) (nodes : List (String × Node)) :
    ∀ fuel,
      (∀ x vis vis', dfsFuel c nodes fuel x vis = some vis' →
        (∀ y, y ∈ vis → y ∈ vis') ∧ x ∈ vis' ∧
        (∀ y, y ∈ vis' → y ∈ vis ∨ ReachVis c nodes x y) ∧
        (∀ a, a ∈ vis' → a ∉ vis → ∀ b ∈ visibleChildren c nodes a, b ∈ vis')) ∧
      (∀ ks vis vis', dfsKids (dfsFuel c nodes fuel) ks vis = some vis' →
        (∀ y, y ∈ vis → y ∈ vis') ∧ (∀ k ∈ ks, k ∈ vis') ∧
        (∀ y, y ∈ vis' → y ∈ vis ∨ ∃ k ∈ ks, ReachVis c nodes k y) ∧
        (∀ a, a ∈ vis' → a ∉ vis → ∀ b ∈ visibleChildren c nodes a, b ∈ vis')) := by
  have gkStep : ∀ fuel,
      (∀ x vis vis', dfsFuel c nodes fuel x vis = some vis' →
        (∀ y, y ∈ vis → y ∈ vis') ∧ x ∈ vis' ∧
        (∀ y, y ∈ vis' → y ∈ vis ∨ ReachVis c nodes x y) ∧
        (∀ a, a ∈ vis' → a ∉ vis → ∀ b ∈ visibleChildren c nodes a, b ∈ vis')) →
      (∀ ks vis vis', dfsKids (dfsFuel c nodes fuel) ks vis = some vis' →
        (∀ y, y ∈ vis → y ∈ vis') ∧ (∀ k ∈ ks, k ∈ vis') ∧
        (∀ y, y ∈ vis' → y ∈ vis ∨ ∃ k ∈ ks, ReachVis c nodes k y) ∧
        (∀ a, a ∈ vis' → a ∉ vis → ∀ b ∈ visibleChildren c nodes a, b ∈ vis')) := by
    intro fuel hdf ks
    induction ks with
    | nil =>
      intro vis vis' h
      simp only [dfsKids] at h
      cases h
      exact ⟨fun _ h => h, by simp, fun y hy => Or.inl hy, fun a ha hna => absurd ha hna⟩
    | cons k kr ih =>
      intro vis vis' h
      simp only [dfsKids] at h
      cases hdk : dfsFuel c nodes fuel k vis with
      | none => rw [hdk] at h; cases h
      | some v2 =>
        rw [hdk] at h
        obtain ⟨f1, f2, f3, f4⟩ := hdf k vis v2 hdk
        obtain ⟨g1, g2, g3, g4⟩ := ih v2 vis' h
        refine ⟨fun y hy => g1 y (f1 y hy), ?_, ?_, ?_⟩
        · intro k0 hk0
          rcases List.mem_cons.mp hk0 with rfl | hk0
          · exact g1 k0 f2
          · exact g2 k0 hk0
        · intro y hy
          rcases g3 y hy with h0 | h0
          · rcases f3 y h0 with h1 | h1
            · exact Or.inl h1
            · exact Or.inr ⟨k, by simp, h1⟩
          · obtain ⟨k0, hk0, hr⟩ := h0
            exact Or.inr ⟨k0, by simp [hk0], hr⟩
        · intro a ha hna b hb
          by_cases hav : a ∈ v2
          · exact g1 b (f4 a hav hna b hb)
          · exact g4 a ha hav b hb
  intro fuel
  induction fuel with
  | zero =>
    constructor
    · intro x vis vis' h
      simp only [dfsFuel] at h
      cases h
    · exact gkStep 0 (by
        intro x vis vis' h
        simp only [dfsFuel] at h
        cases h)
  | succ n IHn =>
    have dfPart : ∀ x vis vis', dfsFuel c nodes (n + 1) x vis = some vis' →
        (∀ y, y ∈ vis → y ∈ vis') ∧ x ∈ vis' ∧
        (∀ y, y ∈ vis' → y ∈ vis ∨ ReachVis c nodes x y) ∧
        (∀ a, a ∈ vis' → a ∉ vis → ∀ b ∈ visibleChildren c nodes a, b ∈ vis') := by
      intro x vis vis' h
      by_cases hv : vis.contains x
      · have hmem : x ∈ vis := by simpa using hv
        simp only [dfsFuel, hv, if_true] at h
        cases h
        exact ⟨fun _ h => h, hmem, fun y hy => Or.inl hy, fun a ha hna => absurd ha hna⟩
      · have hv' : vis.contains x = false := by rwa [Bool.not_eq_true] at hv
        simp only [dfsFuel, hv', Bool.false_eq_true, if_false] at h
        obtain ⟨g1, g2, g3, g4⟩ := (gkStep n IHn.1) _ _ _ h
        have hvis1 : ∀ y, y ∈ vis → y ∈ vis ++ [x] := by
          intro y hy; simp [hy]
        refine ⟨fun y hy => g1 y (hvis1 y hy), g1 x (by simp), ?_, ?_⟩
        · intro y hy
          rcases g3 y hy with h0 | h0
          · rcases List.mem_append.mp h0 with h1 | h1
            · exact Or.inl h1
            · have : y = x := by simpa using h1
              exact Or.inr (this ▸ Relation.ReflTransGen.refl)
          · obtain ⟨k0, hk0, hr⟩ := h0
            exact Or.inr (Relation.ReflTransGen.head hk0 hr)
        · intro a ha hna b hb
          by_cases hax : a = x
          · subst hax
            exact g2 b hb
          · have : a ∉ vis ++ [x] := by
              intro hmem
              rcases List.mem_append.mp hmem with h1 | h1
              · exact hna h1
              · exact hax (by simpa using h1)
            exact g4 a ha this b hb
    exact ⟨dfPart, gkStep (n + 1) dfPart⟩

theorem dfs_reach_iff (c : List String) (nodes : List (String × Node)) (root : String)
    (fuel : Nat) (vis' : List String)
    (h : dfsFuel c nodes fuel root [] = some vis') :
    ∀ y, y ∈ vis' ↔ ReachVis c nodes root y := by
  obtain ⟨_, hroot, sound, closed⟩ := (dfs_main c nodes fuel).1 root [] vis' h
  intro y
  constructor
  · intro hy
    rcases sound y hy with h0 | h0
    · cases h0
    · exact h0
  · intro hy
    induction hy with
    | refl => exact hroot
    | tail _ hstep ihy => exact closed _ ihy (by simp) _ hstep

/-! ### Layout assembly lemmas -/

theorem layoutTree_spec {fuel : Nat} {m : Model} {c : List String} {out : LayoutResult}
    (h : layoutTree fuel m c = some out) :
    ∃ st vis, firstPassFuel c m.nodes fuel m.root 0
        { xPos := [], xNext := 0, depth := [] } = some st ∧
      dfsFuel c m.nodes fuel m.root [] = some vis ∧
      out.vis = vis ∧
      out.coords = vis.map (fun id =>
        (id, ((getEntry st.xPos id).getD 0 * (NODE_W + X_GAP),
              ((getEntry st.depth id).getD 0 : ℚ) * (NODE_H + Y_GAP)))) := by
  unfold layoutTree at h
  cases hst : firstPassFuel c m.nodes fuel m.root 0
      { xPos := [], xNext := 0, depth := [] } with
  | none => rw [hst] at h; cases h
  | some st =>
    rw [hst] at h
    cases hvis : dfsFuel c m.nodes fuel m.root [] with
    | none => rw [hvis] at h; cases h
    | some vis =>
      rw [hvis] at h
      cases h
      exact ⟨st, vis, rfl, rfl, rfl, rfl⟩

theorem getCoord_map_visible (vis : List String) (g : String → ℚ × ℚ) (y : String) :
    getCoord (vis.map (fun id => (id, g id))) y =
      if y ∈ vis then some (g y) else none := by
  induction vis with
  | nil => simp [getCoord]
  | cons v rest ih =>
    unfold getCoord at ih ⊢
    by_cases hv : v = y
    · subst hv
      rw [List.map_cons, List.find?_cons_of_pos _ (by simp)]
      simp
    · rw [List.map_cons, List.find?_cons_of_neg _ (by simpa using hv)]
      rw [ih]
      by_cases hm : y ∈ rest
      · rw [if_pos hm, if_pos (by simp [hm])]
      · rw [if_neg hm, if_neg (by
          intro hmem
          rcases List.mem_cons.mp hmem with h1 | h1
          · exact hv h1.symm
          · exact hm h1)]

/-- Counterexample for C3 as frozen: in the multi-parent model
`R → A, R → C, A → C`, collapsing `A` (which has the child `C`) does
not remove the descendant `C` from the visible set or the coordinate
map, because `C` is still reachable through `R`. -/
theorem c3_counterexample :
    layoutTree 10 diamondModel ["A"] = some
      { coords := [("R", (83, 0)), ("A", (0, 126)), ("C", (166, 126))],
        vis := ["R", "A", "C"] } ∧
    visibleChildren [] diamondModel.nodes "A" = ["C"] ∧
    getCoord [("R", (83, 0)), ("A", (0, 126)), ("C", (166, 126))] "C" =
      some (166, 126) := by
  decide

/-- Counterexample for C6 as frozen: in the model `R → A, R → B,
A → X, B → Cc, Cc → X` with nothing collapsed, `X` is a visible child
of the visible node `A`, but its y-coordinate is `378 = 3 * 126` while
`A` is at `126 = 1 * 126`: the depth of `X` is not one more than its
parent's, because the second traversal path overwrote it. -/
theorem c6_counterexample :
    layoutTree 10 unevenModel [] = some
      { coords := [("R", (83, 0)), ("A", (0, 126)), ("X", (166, 378)),
                   ("B", (166, 126)), ("Cc", (166, 252))],
        vis := ["R", "A", "X", "B", "Cc"] } ∧
    "X" ∈ visibleChildren [] unevenModel.nodes "A" ∧
    getCoord [("R", (83, 0)), ("A", (0, 126)), ("X", (166, 378)),
      ("B", (166, 126)), ("Cc", (166, 252))] "X" = some (166, 378) ∧
    getCoord [("R", (83, 0)), ("A", (0, 126)), ("X", (166, 378)),
      ("B", (166, 126)), ("Cc", (166, 252))] "A" = some (0, 126) ∧
    (378 : ℚ) ≠ 126 + (NODE_H + Y_GAP) := by
  decide

/-! ### Strict-tree structure lemmas -/

theorem stepVis_children {c : List String} {nodes : List (String × Node)} {a b : String}
    (h : stepVis c nodes a b) : ∃ n, lookupNode nodes a = some n ∧ b ∈ n.children := by
  unfold stepVis visibleChildren at h
  by_cases hc : c.contains a
  · rw [if_pos hc] at h; cases h
  · rw [if_neg hc] at h
    cases hl : lookupNode nodes a with
    | none => rw [hl] at h; cases h
    | some n =>
      rw [hl] at h
      exact ⟨n, rfl, h⟩

theorem lookup_children_sub_allChildren (nodes : List (String × Node)) {a : String}
    {n : Node} (h : lookupNode nodes a = some n) :
    ∀ b ∈ n.children, b ∈ allChildren nodes := by
  intro b hb
  unfold lookupNode at h
  cases hf : nodes.find? (fun p => p.1 = a) with
  | none => rw [hf] at h; cases h
  | some p =>
    rw [hf] at h
    injection h with h
    subst h
    have hp : p ∈ nodes := List.mem_of_find?_eq_some hf
    unfold allChildren
    exact List.mem_flatten_of_mem (List.mem_map_of_mem _ hp) hb

theorem allChildren_lookup_unique :
    ∀ (nodes : List (String × Node)), (allChildren nodes).Nodup →
      ∀ a b na nb y, lookupNode nodes a = some na → lookupNode nodes b = some nb →
        y ∈ na.children → y ∈ nb.children → a = b := by
  intro nodes
  induction nodes with
  | nil => intro _ a b na nb y ha _ _ _; cases ha
  | cons p rest ih =>
    intro hnd a b na nb y ha hb hya hyb
    have hallc : allChildren (p :: rest) = p.2.children ++ allChildren rest := rfl
    rw [hallc] at hnd
    have hdisj := List.disjoint_of_nodup_append hnd
    unfold lookupNode at ha hb
    by_cases hpa : p.1 = a
    · rw [List.find?_cons_of_pos _ (by simpa using hpa)] at ha
      injection ha with ha
      by_cases hpb : p.1 = b
      · rw [hpa] at hpb; exact hpb
      · rw [List.find?_cons_of_neg _ (by simpa using hpb)] at hb
        exfalso
        subst ha
        exact hdisj hya (lookup_children_sub_allChildren rest hb y hyb)
    · rw [List.find?_cons_of_neg _ (by simpa using hpa)] at ha
      by_cases hpb : p.1 = b
      · rw [List.find?_cons_of_pos _ (by simpa using hpb)] at hb
        injection hb with hb
        exfalso
        subst hb
        exact hdisj hyb (lookup_children_sub_allChildren rest ha y hya)
      · rw [List.find?_cons_of_neg _ (by simpa using hpb)] at hb
        exact ih hnd.of_append_right a b na nb y ha hb hya hyb

/-- In a model with no duplicated child occurrence, every id has at
most one parent, under any two collapse sets. -/
theorem unique_parent {nodes : List (String × Node)}
    (hnd : (allChildren nodes).Nodup) {c1 c2 : List String} {a b y : String}
    (h1 : stepVis c1 nodes a y) (h2 : stepVis c2 nodes b y) : a = b := by
  obtain ⟨n1, hl1, hm1⟩ := stepVis_children h1
  obtain ⟨n2, hl2, hm2⟩ := stepVis_children h2
  exact allChildren_lookup_unique nodes hnd a b n1 n2 y hl1 hl2 hm1 hm2

theorem no_step_to_root {nodes : List (String × Node)} {root : String}
    (hroot : root ∉ allChildren nodes) (c : List String) (a : String) :
    ¬ stepVis c nodes a root := by
  intro h
  obtain ⟨n, hl, hm⟩ := stepVis_children h
  exact hroot (lookup_children_sub_allChildren nodes hl root hm)

/-- In a strict tree no visible cycle is reachable from the root. -/
theorem strictTree_no_cycle {m : Model} (hSt : StrictTree m) (c : List String) :
    ∀ y, ReachVis c m.nodes m.root y →
      ¬ Relation.TransGen (stepVis c m.nodes) y y := by
  obtain ⟨_, hnd, hroot⟩ := hSt
  intro y hy
  induction hy with
  | refl =>
    intro hT
    cases hT with
    | single hs => exact no_step_to_root hroot c _ hs
    | tail _ hs => exact no_step_to_root hroot c _ hs
  | @tail a y hmid hstep ih =>
    intro hT
    by_cases hya : y = a
    · exact ih (hya ▸ hT)
    · cases hT with
      | single hs => exact hya (unique_parent hnd hs hstep)
      | tail hmid2 hs =>
        rename_i b
        have hba : b = a := unique_parent hnd hs hstep
        exact ih (Relation.TransGen.head hstep (hba ▸ hmid2))

theorem strictTree_kids_nodup {m : Model} (hSt : StrictTree m) (c : List String)
    (y : String) : (visibleChildren c m.nodes y).Nodup := by
  obtain ⟨_, hnd, _⟩ := hSt
  unfold visibleChildren
  by_cases hc : c.contains y
  · rw [if_pos hc]; exact List.nodup_nil
  · rw [if_neg hc]
    cases hl : lookupNode m.nodes y with
    | none => exact List.nodup_nil
    | some n =>
      unfold lookupNode at hl
      cases hf : m.nodes.find? (fun p => p.1 = y) with
      | none => rw [hf] at hl; cases hl
      | some p =>
        rw [hf] at hl
        injection hl with hl
        subst hl
        have hp : p ∈ m.nodes := List.mem_of_find?_eq_some hf
        have hmem : p.2.children ∈ m.nodes.map (fun q => q.2.children) :=
          List.mem_map_of_mem _ hp
        exact ((List.nodup_flatten.mp hnd).1 _ hmem)

/-- Two nodes of a unique-visible-parent region never reach a common
node unless one reaches the other. -/
theorem reach_compare {nodes : List (String × Node)} {c : List String} {root : String}
    (hup : ∀ a b y, ReachVis c nodes root a → ReachVis c nodes root b →
      stepVis c nodes a y → stepVis c nodes b y → a = b)
    {a b : String} (ha0 : ReachVis c nodes root a) (hb0 : ReachVis c nodes root b) :
    ∀ y, ReachVis c nodes a y → ReachVis c nodes b y →
      ReachVis c nodes a b ∨ ReachVis c nodes b a := by
  intro y ha
  induction ha with
  | refl => exact fun hb => Or.inr hb
  | @tail z y2 hmid hstep ih =>
    intro hb
    cases (Relation.ReflTransGen.cases_tail hb) with
    | inl h0 =>
      subst h0
      exact Or.inl (Relation.ReflTransGen.tail hmid hstep)
    | inr h0 =>
      obtain ⟨w, hbw, hwy⟩ := h0
      have hwz : w = z := hup w z y2 (hb0.trans hbw) (ha0.trans hmid) hwy hstep
      exact ih (hwz ▸ hbw)

/-- A node visible under `c` is still visible after collapsing itself. -/
theorem reach_insert_collapsed (c : List String) (nodes : List (String × Node))
    (root x : String) (h : ReachVis c nodes root x) :
    ReachVis (x :: c) nodes root x := by
  have main : ∀ y, ReachVis c nodes root y →
      ReachVis (x :: c) nodes root y ∨ ReachVis (x :: c) nodes root x := by
    intro y hy
    induction hy with
    | refl => exact Or.inl Relation.ReflTransGen.refl
    | @tail b y2 hmid hstep ih =>
      rcases ih with ih | ih
      · by_cases hbx : b = x
        · exact Or.inr (hbx ▸ ih)
        · have hstep' : stepVis (x :: c) nodes b y2 := by
            unfold stepVis visibleChildren at hstep ⊢
            by_cases hc : c.contains b
            · rw [if_pos hc] at hstep; cases hstep
            · rw [if_neg hc] at hstep
              have hc2 : b ∉ c := by simpa using hc
              rw [if_neg (by simp [hbx, hc2])]
              exact hstep
          exact Or.inl (Relation.ReflTransGen.tail ih hstep')
      · exact Or.inr ih
  rcases main x h with h0 | h0 <;> exact h0

/-! ### C3: the collapse invariant (on strict trees) -/

/-- C3 (amended): for every strict-tree model, every collapse set, and
every node `x` that is visible and has at least one child, adding `x`
to the collapse set removes every strict descendant of `x` (transitive,
along the full child lists) from the visible set and from the
coordinate map, while `x` itself remains visible with coordinates.  On
an arbitrary model this fails: a descendant reachable around the
collapsed node stays visible (see the counterexample), which also
refutes "a node whose ancestor is collapsed is itself invisible". -/
theorem c3_collapse_invariant (m : Model) (c : List String) (x : String) (fuel : Nat)
    (out' : LayoutResult)
    (hSt : StrictTree m)
    (hx : ReachVis c m.nodes m.root x)
    (hkids : visibleChildren [] m.nodes x ≠ [])
    (hlay : layoutTree fuel m (x :: c) = some out') :
    (∀ y, Relation.TransGen (stepVis [] m.nodes) x y →
      y ∉ out'.vis ∧ getCoord out'.coords y = none) ∧
    x ∈ out'.vis ∧ (getCoord out'.coords x).isSome := by
  obtain ⟨st, vis, hst, hvis, hov, hoc⟩ := layoutTree_spec hlay
  have hiff := dfs_reach_iff (x :: c) m.nodes m.root fuel vis hvis
  have hnd := hSt.2.1
  have hrootnc := hSt.2.2
  have hxvis' : ReachVis (x :: c) m.nodes m.root x :=
    reach_insert_collapsed c m.nodes m.root x hx
  have hdesc : ∀ y, Relation.TransGen (stepVis [] m.nodes) x y → y ∉ vis := by
    intro y hT
    induction hT with
    | single hs =>
      rename_i y0
      intro hyv
      have hry : ReachVis (x :: c) m.nodes m.root y0 := (hiff y0).mp hyv
      cases (Relation.ReflTransGen.cases_tail hry) with
      | inl h0 =>
        subst h0
        exact no_step_to_root hrootnc [] x hs
      | inr h0 =>
        obtain ⟨p, _, hpy⟩ := h0
        have hpx : p = x := unique_parent hnd hpy hs
        subst hpx
        obtain ⟨n, hl, _⟩ := stepVis_children hpy
        unfold stepVis visibleChildren at hpy
        rw [if_pos (by simp)] at hpy
        cases hpy
    | tail hmid hs ih =>
      rename_i z y0
      intro hyv
      have hry : ReachVis (x :: c) m.nodes m.root y0 := (hiff y0).mp hyv
      cases (Relation.ReflTransGen.cases_tail hry) with
      | inl h0 =>
        subst h0
        exact no_step_to_root hrootnc [] z hs
      | inr h0 =>
        obtain ⟨p, hrp, hpy⟩ := h0
        have hpz : p = z := unique_parent hnd hpy hs
        subst hpz
        exact ih ((hiff p).mpr hrp)
  constructor
  · intro y hT
    have hyv : y ∉ vis := hdesc y hT
    constructor
    · rw [hov]; exact hyv
    · rw [hoc, getCoord_map_visible, if_neg hyv]
  · constructor
    · rw [hov]; exact (hiff x).mpr hxvis'
    · rw [hoc, getCoord_map_visible, if_pos ((hiff x).mpr hxvis')]
      rfl

/-- Witness for C3: collapsing `c2` in `model024` hides its three leaf
children while `c2` itself keeps coordinates. -/
theorem c3_witness :
    (∀ y, Relation.TransGen (stepVis [] model024.nodes) "c2" y →
      y ∉ (LayoutResult.mk [("R", (166, 0)), ("c1", (0, 126)), ("c2", (166, 126)),
        ("c3", (332, 126))] ["R", "c1", "c2", "c3"]).vis ∧
      getCoord (LayoutResult.mk [("R", (166, 0)), ("c1", (0, 126)), ("c2", (166, 126)),
        ("c3", (332, 126))] ["R", "c1", "c2", "c3"]).coords y = none) ∧
    "c2" ∈ (LayoutResult.mk [("R", (166, 0)), ("c1", (0, 126)), ("c2", (166, 126)),
      ("c3", (332, 126))] ["R", "c1", "c2", "c3"]).vis ∧
    (getCoord (LayoutResult.mk [("R", (166, 0)), ("c1", (0, 126)), ("c2", (166, 126)),
      ("c3", (332, 126))] ["R", "c1", "c2", "c3"]).coords "c2").isSome :=
  c3_collapse_invariant model024 [] "c2" 10
    (LayoutResult.mk [("R", (166, 0)), ("c1", (0, 126)), ("c2", (166, 126)),
      ("c3", (332, 126))] ["R", "c1", "c2", "c3"])
    (by decide)
    (Relation.ReflTransGen.single (by decide))
    (by decide)
    (by decide)

/-! ### Generalized tree helpers for the slot/depth lemma -/

theorem kids_nodup_of_nodup {nodes : List (String × Node)}
    (hnd : (allChildren nodes).Nodup) (c : List String) (y : String) :
    (visibleChildren c nodes y).Nodup := by
  unfold visibleChildren
  by_cases hc : c.contains y
  · rw [if_pos hc]; exact List.nodup_nil
  · rw [if_neg hc]
    cases hl : lookupNode nodes y with
    | none => exact List.nodup_nil
    | some n =>
      unfold lookupNode at hl
      cases hf : nodes.find? (fun p => p.1 = y) with
      | none => rw [hf] at hl; cases hl
      | some p =>
        rw [hf] at hl
        injection hl with hl
        subst hl
        exact (List.nodup_flatten.mp hnd).1 _
          (List.mem_map_of_mem _ (List.mem_of_find?_eq_some hf))

theorem no_cycle_no_back {c : List String} {nodes : List (String × Node)} {root x : String}
    (hnc : ∀ y, ReachVis c nodes root y → ¬ Relation.TransGen (stepVis c nodes) y y)
    (hx : ReachVis c nodes root x) :
    ∀ y, ReachVis c nodes x y → ¬ stepVis c nodes y x := by
  intro y hxy hs
  exact hnc x hx (Relation.TransGen.tail' hxy hs)

theorem disjoint_kids_of {nodes : List (String × Node)} {c : List String} {root : String}
    (hup : ∀ a b y, ReachVis c nodes root a → ReachVis c nodes root b →
      stepVis c nodes a y → stepVis c nodes b y → a = b)
    (hnc : ∀ y, ReachVis c nodes root y → ¬ Relation.TransGen (stepVis c nodes) y y)
    {x : String} (hx : ReachVis c nodes root x) {k1 k2 : String}
    (h1 : k1 ∈ visibleChildren c nodes x) (h2 : k2 ∈ visibleChildren c nodes x)
    (hne : k1 ≠ k2) :
    ∀ y, ReachVis c nodes k1 y → ¬ ReachVis c nodes k2 y := by
  intro y hy1 hy2
  have hstep1 : stepVis c nodes x k1 := h1
  have hstep2 : stepVis c nodes x k2 := h2
  have hk1r : ReachVis c nodes root k1 := hx.tail hstep1
  have hk2r : ReachVis c nodes root k2 := hx.tail hstep2
  rcases reach_compare hup hk1r hk2r y hy1 hy2 with hr | hr
  · cases (Relation.ReflTransGen.cases_tail hr) with
    | inl h0 => exact hne h0.symm
    | inr h0 =>
      obtain ⟨w, hkw, hwk2⟩ := h0
      have hwx : w = x := hup w x k2 (hk1r.trans hkw) hx hwk2 hstep2
      exact hnc x hx (Relation.TransGen.head' hstep1 (hwx ▸ hkw))
  · cases (Relation.ReflTransGen.cases_tail hr) with
    | inl h0 => exact hne h0
    | inr h0 =>
      obtain ⟨w, hkw, hwk1⟩ := h0
      have hwx : w = x := hup w x k1 (hk2r.trans hkw) hx hwk1 hstep1
      exact hnc x hx (Relation.TransGen.head' hstep2 (hwx ▸ hkw))

/-! ### Slots and depths on tree-like models -/

theorem bl_main (c : List String) (nodes : List (String × Node)) (root : String)
    (hup : ∀ a b y, ReachVis c nodes root a → ReachVis c nodes root b →
      stepVis c nodes a y → stepVis c nodes b y → a = b)
    (hkn : ∀ y, ReachVis c nodes root y → (visibleChildren c nodes y).Nodup)
    (hnc : ∀ y, ReachVis c nodes root y → ¬ Relation.TransGen (stepVis c nodes) y y) :
    ∀ fuel,
      (∀ x d st st', firstPassFuel c nodes fuel x d st = some st' →
        ReachVis c nodes root x →
        ∃ L : List String,
          (∀ y, y ∈ L ↔ (ReachVis c nodes x y ∧ visibleChildren c nodes y = [])) ∧
          L.Nodup ∧
          st'.xNext = st.xNext + L.length ∧
          (∀ i : Nat, ∀ hi : i < L.length,
            getEntry st'.xPos (L.get ⟨i, hi⟩) = some ((st.xNext + i : Nat) : ℚ)) ∧
          (∀ y, ReachVis c nodes x y → visibleChildren c nodes y ≠ [] →
            getEntry st'.xPos y = some (centerOf c nodes st'.xPos y)) ∧
          (getEntry st'.depth x = some d) ∧
          (∀ y, ReachVis c nodes x y → ∀ k ∈ visibleChildren c nodes y,
            ∃ dy, getEntry st'.depth y = some dy ∧
              getEntry st'.depth k = some (dy + 1))) ∧
      (∀ ks d st st', goKids (firstPassFuel c nodes fuel) ks d st = some st' →
        (∀ k ∈ ks, ReachVis c nodes root k) →
        ks.Nodup →
        (∀ k1 ∈ ks, ∀ k2 ∈ ks, k1 ≠ k2 → ∀ y,
          ReachVis c nodes k1 y → ¬ ReachVis c nodes k2 y) →
        ∃ L : List String,
          (∀ y, y ∈ L ↔ ∃ k ∈ ks,
            (ReachVis c nodes k y ∧ visibleChildren c nodes y = [])) ∧
          L.Nodup ∧
          st'.xNext = st.xNext + L.length ∧
          (∀ i : Nat, ∀ hi : i < L.length,
            getEntry st'.xPos (L.get ⟨i, hi⟩) = some ((st.xNext + i : Nat) : ℚ)) ∧
          (∀ y, (∃ k ∈ ks, ReachVis c nodes k y) → visibleChildren c nodes y ≠ [] →
            getEntry st'.xPos y = some (centerOf c nodes st'.xPos y)) ∧
          (∀ k ∈ ks, getEntry st'.depth k = some d) ∧
          (∀ y, (∃ k ∈ ks, ReachVis c nodes k y) → ∀ k2 ∈ visibleChildren c nodes y,
            ∃ dy, getEntry st'.depth y = some dy ∧
              getEntry st'.depth k2 = some (dy + 1))) := by
  have gkStep : ∀ fuel,
      (∀ x d st st', firstPassFuel c nodes fuel x d st = some st' →
        ReachVis c nodes root x →
        ∃ L : List String,
          (∀ y, y ∈ L ↔ (ReachVis c nodes x y ∧ visibleChildren c nodes y = [])) ∧
          L.Nodup ∧
          st'.xNext = st.xNext + L.length ∧
          (∀ i : Nat, ∀ hi : i < L.length,
            getEntry st'.xPos (L.get ⟨i, hi⟩) = some ((st.xNext + i : Nat) : ℚ)) ∧
          (∀ y, ReachVis c nodes x y → visibleChildren c nodes y ≠ [] →
            getEntry st'.xPos y = some (centerOf c nodes st'.xPos y)) ∧
          (getEntry st'.depth x = some d) ∧
          (∀ y, ReachVis c nodes x y → ∀ k ∈ visibleChildren c nodes y,
            ∃ dy, getEntry st'.depth y = some dy ∧
              getEntry st'.depth k = some (dy + 1))) →
      (∀ ks d st st', goKids (firstPassFuel c nodes fuel) ks d st = some st' →
        (∀ k ∈ ks, ReachVis c nodes root k) →
        ks.Nodup →
        (∀ k1 ∈ ks, ∀ k2 ∈ ks, k1 ≠ k2 → ∀ y,
          ReachVis c nodes k1 y → ¬ ReachVis c nodes k2 y) →
        ∃ L : List String,
          (∀ y, y ∈ L ↔ ∃ k ∈ ks,
            (ReachVis c nodes k y ∧ visibleChildren c nodes y = [])) ∧
          L.Nodup ∧
          st'.xNext = st.xNext + L.length ∧
          (∀ i : Nat, ∀ hi : i < L.length,
            getEntry st'.xPos (L.get ⟨i, hi⟩) = some ((st.xNext + i : Nat) : ℚ)) ∧
          (∀ y, (∃ k ∈ ks, ReachVis c nodes k y) → visibleChildren c nodes y ≠ [] →
            getEntry st'.xPos y = some (centerOf c nodes st'.xPos y)) ∧
          (∀ k ∈ ks, getEntry st'.depth k = some d) ∧
          (∀ y, (∃ k ∈ ks, ReachVis c nodes k y) → ∀ k2 ∈ visibleChildren c nodes y,
            ∃ dy, getEntry st'.depth y = some dy ∧
              getEntry st'.depth k2 = some (dy + 1))) := by
    intro fuel hfp ks
    induction ks with
    | nil =>
      intro d st st' h _ _ _
      simp only [goKids] at h
      cases h
      refine ⟨[], by simp, List.nodup_nil, by simp, by simp, by simp, by simp, by simp⟩
    | cons k kr ih =>
      intro d st st' h hreach hnodup hdisj
      simp only [goKids] at h
      cases hfpk : firstPassFuel c nodes fuel k d st with
      | none => rw [hfpk] at h; cases h
      | some s2 =>
        rw [hfpk] at h
        have hkroot : ReachVis c nodes root k := hreach k (by simp)
        obtain ⟨L1, m1, nd1, nx1, sl1, ce1, dk1, dc1⟩ := hfp k d st s2 hfpk hkroot
        obtain ⟨L2, m2, nd2, nx2, sl2, ce2, dk2, dc2⟩ := ih d s2 st' h
          (fun k0 hk0 => hreach k0 (by simp [hk0]))
          hnodup.of_cons
          (fun k1 hk1 k2 hk2 hne y hy =>
            hdisj k1 (by simp [hk1]) k2 (by simp [hk2]) hne y hy)
        -- entries from k's subtree survive the processing of kr
        have hpreserve : ∀ y, ReachVis c nodes k y →
            getEntry st'.xPos y = getEntry s2.xPos y ∧
            getEntry st'.depth y = getEntry s2.depth y := by
          intro y hy
          refine ((fp_main c nodes fuel).2 kr d s2 st' h).2.2.2.2 y ?_
          intro k0 hk0 hk0y
          have hkne : k ≠ k0 := by
            intro hh
            subst hh
            exact (List.nodup_cons.mp hnodup).1 hk0
          exact hdisj k (by simp) k0 (by simp [hk0]) hkne y hy hk0y
        have hsub1 : ∀ y ∈ L1, ReachVis c nodes k y := fun y hy => ((m1 y).mp hy).1
        refine ⟨L1 ++ L2, ?_, ?_, ?_, ?_, ?_, ?_, ?_⟩
        · intro y
          constructor
          · intro hy
            rcases List.mem_append.mp hy with hy | hy
            · exact ⟨k, by simp, (m1 y).mp hy⟩
            · obtain ⟨k0, hk0, hk0y⟩ := (m2 y).mp hy
              exact ⟨k0, by simp [hk0], hk0y⟩
          · rintro ⟨k0, hk0, hk0y⟩
            rcases List.mem_cons.mp hk0 with rfl | hk0
            · exact List.mem_append.mpr (Or.inl ((m1 y).mpr hk0y))
            · exact List.mem_append.mpr (Or.inr ((m2 y).mpr ⟨k0, hk0, hk0y⟩))
        · refine nd1.append nd2 ?_
          intro y hy1 hy2
          obtain ⟨k0, hk0, hk0y⟩ := (m2 y).mp hy2
          have hkne : k ≠ k0 := by
            intro hh
            subst hh
            exact (List.nodup_cons.mp hnodup).1 hk0
          exact hdisj k (by simp) k0 (by simp [hk0]) hkne y (hsub1 y hy1) hk0y.1
        · rw [nx2, nx1, List.length_append]
          omega
        · intro i hi
          rw [List.length_append] at hi
          by_cases hi1 : i < L1.length
          · have hget : (L1 ++ L2).get ⟨i, by rw [List.length_append]; omega⟩ =
                L1.get ⟨i, hi1⟩ := by
              simp only [List.get_eq_getElem]
              exact List.getElem_append_left hi1
            rw [hget]
            rw [(hpreserve _ (hsub1 _ (L1.get_mem _ _))).1]
            exact sl1 i hi1
          · have hle : L1.length ≤ i := by omega
            have hi2 : i - L1.length < L2.length := by omega
            have hget : (L1 ++ L2).get ⟨i, by rw [List.length_append]; omega⟩ =
                L2.get ⟨i - L1.length, hi2⟩ := by
              simp only [List.get_eq_getElem]
              exact List.getElem_append_right hle
            rw [hget, sl2 (i - L1.length) hi2, nx1]
            have heq : st.xNext + L1.length + (i - L1.length) = st.xNext + i := by omega
            rw [heq]
        · intro y hy hyk
          obtain ⟨k0, hk0, hk0y⟩ := hy
          rcases List.mem_cons.mp hk0 with rfl | hk0
          · have hc1 := ce1 y hk0y hyk
            have hkidsreach : ∀ z ∈ visibleChildren c nodes y, ReachVis c nodes k0 z :=
              fun z hz => Relation.ReflTransGen.tail hk0y hz
            rw [(hpreserve y hk0y).1, hc1]
            congr 1
            unfold centerOf
            have hmapeq : (visibleChildren c nodes y).map
                (fun z => (getEntry st'.xPos z).getD 0) =
                (visibleChildren c nodes y).map
                (fun z => (getEntry s2.xPos z).getD 0) := by
              apply List.map_congr_left
              intro z hz
              rw [(hpreserve z (hkidsreach z hz)).1]
            rw [hmapeq]
          · exact ce2 y ⟨k0, hk0, hk0y⟩ hyk
        · intro k0 hk0
          rcases List.mem_cons.mp hk0 with rfl | hk0
          · rw [(hpreserve k0 Relation.ReflTransGen.refl).2]
            exact dk1
          · exact dk2 k0 hk0
        · intro y hy k2 hk2
          obtain ⟨k0, hk0, hk0y⟩ := hy
          rcases List.mem_cons.mp hk0 with rfl | hk0
          · obtain ⟨dy, hdy, hdk⟩ := dc1 y hk0y k2 hk2
            refine ⟨dy, ?_, ?_⟩
            · rw [(hpreserve y hk0y).2]; exact hdy
            · rw [(hpreserve k2 (Relation.ReflTransGen.tail hk0y hk2)).2]; exact hdk
          · exact dc2 y ⟨k0, hk0, hk0y⟩ k2 hk2
  intro fuel
  induction fuel with
  | zero =>
    constructor
    · intro x d st st' h
      simp only [firstPassFuel] at h
      cases h
    · exact gkStep 0 (by
        intro x d st st' h
        simp only [firstPassFuel] at h
        cases h)
  | succ n IHn =>
    have fpPart : ∀ x d st st', firstPassFuel c nodes (n + 1) x d st = some st' →
        ReachVis c nodes root x →
        ∃ L : List String,
          (∀ y, y ∈ L ↔ (ReachVis c nodes x y ∧ visibleChildren c nodes y = [])) ∧
          L.Nodup ∧
          st'.xNext = st.xNext + L.length ∧
          (∀ i : Nat, ∀ hi : i < L.length,
            getEntry st'.xPos (L.get ⟨i, hi⟩) = some ((st.xNext + i : Nat) : ℚ)) ∧
          (∀ y, ReachVis c nodes x y → visibleChildren c nodes y ≠ [] →
            getEntry st'.xPos y = some (centerOf c nodes st'.xPos y)) ∧
          (getEntry st'.depth x = some d) ∧
          (∀ y, ReachVis c nodes x y → ∀ k ∈ visibleChildren c nodes y,
            ∃ dy, getEntry st'.depth y = some dy ∧
              getEntry st'.depth k = some (dy + 1)) := by
      intro x d st st' h hx
      cases hkids : visibleChildren c nodes x with
      | nil =>
        simp only [firstPassFuel, hkids, List.isEmpty_nil, if_true] at h
        cases h
        have hreachx : ∀ y, ReachVis c nodes x y → y = x := by
          intro y hy
          cases (Relation.ReflTransGen.cases_head hy) with
          | inl h0 => exact h0.symm
          | inr h0 =>
            obtain ⟨k0, hstep, _⟩ := h0
            unfold stepVis at hstep
            rw [hkids] at hstep
            cases hstep
        refine ⟨[x], ?_, List.nodup_singleton x, by simp, ?_, ?_, ?_, ?_⟩
        · intro y
          constructor
          · intro hy
            have hyx : y = x := by simpa using hy
            subst hyx
            exact ⟨Relation.ReflTransGen.refl, hkids⟩
          · intro ⟨hy, _⟩
            simp [hreachx y hy]
        · intro i hi
          have hi0 : i = 0 := by simpa using hi
          subst hi0
          simp only [List.get]
          rw [getEntry_setEntry_self]
          norm_num
        · intro y hy hyk
          rw [hreachx y hy] at hyk
          exact absurd hkids hyk
        · rw [getEntry_setEntry_self]
        · intro y hy k hk
          rw [hreachx y hy, hkids] at hk
          cases hk
      | cons k0 kr0 =>
        simp only [firstPassFuel, hkids, List.isEmpty_cons, Bool.false_eq_true,
          if_false] at h
        cases hgo : goKids (firstPassFuel c nodes n) (k0 :: kr0) (d + 1)
            { st with depth := setEntry st.depth x d } with
        | none => rw [hgo] at h; cases h
        | some st2 =>
          rw [hgo] at h
          cases h
          have hselfn : x ∉ visibleChildren c nodes x := by
            intro hmem
            exact hnc x hx (Relation.TransGen.single hmem)
          have hnotback : ∀ k ∈ visibleChildren c nodes x, ¬ ReachVis c nodes k x := by
            intro k hk hreach
            exact hnc x hx (Relation.TransGen.head' hk hreach)
          have hgokids := gkStep n IHn.1 (k0 :: kr0) (d + 1)
            { st with depth := setEntry st.depth x d } st2 hgo
            (by
              intro k hk
              rw [← hkids] at hk
              exact Relation.ReflTransGen.tail hx hk)
            (hkids ▸ hkn x hx)
            (by
              intro k1 hk1 k2 hk2 hne y hy
              rw [← hkids] at hk1 hk2
              exact disjoint_kids_of hup hnc hx hk1 hk2 hne y hy)
          obtain ⟨L, mL, ndL, nxL, slL, ceL, dkL, dcL⟩ := hgokids
          have hxnotsub : ∀ k ∈ (k0 :: kr0), ¬ ReachVis c nodes k x := by
            intro k hk
            rw [← hkids] at hk
            exact hnotback k hk
          have hxuntouched :
              getEntry st2.xPos x = getEntry st.xPos x ∧
              getEntry st2.depth x = getEntry (setEntry st.depth x d) x :=
            ((fp_main c nodes n).2 (k0 :: kr0) (d + 1)
              { st with depth := setEntry st.depth x d } st2 hgo).2.2.2.2 x hxnotsub
          have hLleaf : ∀ y ∈ L, visibleChildren c nodes y = [] := by
            intro y hy
            obtain ⟨k, hk, _, hleaf⟩ := (mL y).mp hy
            exact hleaf
          have hxnotL : x ∉ L := by
            intro hmem
            rw [hLleaf x hmem] at hkids
            cases hkids
          have hmemsub : ∀ y ∈ L, ∃ k ∈ (k0 :: kr0), ReachVis c nodes k y := by
            intro y hy
            obtain ⟨k, hk, hky, _⟩ := (mL y).mp hy
            exact ⟨k, hk, hky⟩
          -- membership characterization for x's subtree
          have hmemiff : ∀ y, (ReachVis c nodes x y ∧ visibleChildren c nodes y = []) ↔
              ∃ k ∈ (k0 :: kr0), (ReachVis c nodes k y ∧ visibleChildren c nodes y = []) := by
            intro y
            constructor
            · rintro ⟨hy, hleaf⟩
              cases (Relation.ReflTransGen.cases_head hy) with
              | inl h0 =>
                subst h0
                rw [hleaf] at hkids
                cases hkids
              | inr h0 =>
                obtain ⟨k, hstep, hrest⟩ := h0
                unfold stepVis at hstep
                rw [hkids] at hstep
                exact ⟨k, hstep, hrest, hleaf⟩
            · rintro ⟨k, hk, hky, hleaf⟩
              refine ⟨Relation.ReflTransGen.head ?_ hky, hleaf⟩
              unfold stepVis
              rw [hkids]
              exact hk
          refine ⟨L, ?_, ndL, by simpa using nxL, ?_, ?_, ?_, ?_⟩
          · intro y
            rw [mL y, ← hmemiff y]
          · intro i hi
            rw [getEntry_setEntry_ne _ _ _ _ (by
              intro hh
              exact hxnotL (hh ▸ L.get_mem i _))]
            simpa using slL i hi
          · intro y hy hyk
            cases (Relation.ReflTransGen.cases_head hy) with
            | inl h0 =>
              -- y = x : its slot is exactly the centering assignment
              subst h0
              rw [getEntry_setEntry_self]
              congr 1
              unfold centerOf
              rw [hkids]
              have hmapeq : ∀ v : ℚ, (k0 :: kr0).map
                  (fun z => (getEntry (setEntry st2.xPos x v) z).getD 0) =
                  (k0 :: kr0).map (fun z => (getEntry st2.xPos z).getD 0) := by
                intro v
                apply List.map_congr_left
                intro z hz
                rw [getEntry_setEntry_ne _ _ _ _ (by
                  intro hh
                  subst hh
                  exact hselfn (hkids ▸ hz))]
              rw [hmapeq]
            | inr h0 =>
              obtain ⟨k, hstep, hrest⟩ := h0
              have hkmem : k ∈ (k0 :: kr0) := by
                unfold stepVis at hstep
                rw [hkids] at hstep
                exact hstep
              have hxny : y ≠ x := by
                intro hh
                subst hh
                exact hnotback k (hkids ▸ hkmem) hrest
              have hc := ceL y ⟨k, hkmem, hrest⟩ hyk
              rw [getEntry_setEntry_ne _ _ _ _ hxny, hc]
              congr 1
              unfold centerOf
              have hmapeq : ∀ v : ℚ, (visibleChildren c nodes y).map
                  (fun z => (getEntry (setEntry st2.xPos x v) z).getD 0) =
                  (visibleChildren c nodes y).map
                    (fun z => (getEntry st2.xPos z).getD 0) := by
                intro v
                apply List.map_congr_left
                intro z hz
                rw [getEntry_setEntry_ne _ _ _ _ (by
                  intro hh
                  subst hh
                  exact hnotback k (hkids ▸ hkmem)
                    (Relation.ReflTransGen.tail hrest hz))]
              rw [hmapeq]
          · rw [hxuntouched.2, getEntry_setEntry_self]
          · intro y hy k2 hk2
            cases (Relation.ReflTransGen.cases_head hy) with
            | inl h0 =>
              subst h0
              refine ⟨d, ?_, ?_⟩
              · rw [hxuntouched.2, getEntry_setEntry_self]
              · exact dkL k2 (hkids ▸ hk2)
            | inr h0 =>
              obtain ⟨k, hstep, hrest⟩ := h0
              have hkmem : k ∈ (k0 :: kr0) := by
                unfold stepVis at hstep
                rwa [hkids] at hstep
              exact dcL y ⟨k, hkmem, hrest⟩ k2 hk2
    exact ⟨fpPart, gkStep (n + 1) fpPart⟩

theorem strictTree_implies_visTree {m : Model} (hSt : StrictTree m) (c : List String) :
    VisTreeFrom c m.nodes m.root :=
  ⟨fun a b y _ _ h1 h2 => unique_parent hSt.2.1 h1 h2,
   strictTree_no_cycle hSt c,
   fun y _ => kids_nodup_of_nodup hSt.2.1 c y⟩

/-! ### C10: visible leaves occupy consecutive slots -/

/-- C10: when the visible portion reachable from the root is a strict
tree (unique visible parents among reachable nodes, no reachable
visible cycle, no repeated child in a visible child list), the slots of
the visible leaves are exactly the consecutive integers `0 … k-1` in
discovery order, so distinct visible leaves receive pairwise distinct
x-coordinates. -/
theorem c10_leaf_slots (m : Model) (c : List String) (fuel : Nat) (st : PassState)
    (out : LayoutResult)
    (hvt : VisTreeFrom c m.nodes m.root)
    (hst : firstPassFuel c m.nodes fuel m.root 0
      { xPos := [], xNext := 0, depth := [] } = some st)
    (hlay : layoutTree fuel m c = some out) :
    ∃ L : List String,
      (∀ y, y ∈ L ↔ (y ∈ out.vis ∧ visibleChildren c m.nodes y = [])) ∧
      L.Nodup ∧
      (∀ i : Nat, ∀ hi : i < L.length,
        getEntry st.xPos (L.get ⟨i, hi⟩) = some ((i : Nat) : ℚ)) ∧
      (∀ i : Nat, ∀ hi : i < L.length,
        getCoord out.coords (L.get ⟨i, hi⟩) =
          some (((i : Nat) : ℚ) * (NODE_W + X_GAP),
            ((getEntry st.depth (L.get ⟨i, hi⟩)).getD 0 : ℚ) * (NODE_H + Y_GAP))) ∧
      (∀ i j : Nat, ∀ hi : i < L.length, ∀ hj : j < L.length, i ≠ j →
        (getCoord out.coords (L.get ⟨i, hi⟩)).map Prod.fst ≠
          (getCoord out.coords (L.get ⟨j, hj⟩)).map Prod.fst) := by
  obtain ⟨hup, hnc, hkn⟩ := hvt
  obtain ⟨st0, vis, hst0, hvis, hov, hoc⟩ := layoutTree_spec hlay
  have hsteq : st0 = st := by
    rw [hst] at hst0
    exact (Option.some.inj hst0).symm
  subst hsteq
  obtain ⟨L, mL, ndL, nxL, slL, _, _, _⟩ :=
    (bl_main c m.nodes m.root hup hkn hnc fuel).1 m.root 0 _ st0 hst
      Relation.ReflTransGen.refl
  have hiff := dfs_reach_iff c m.nodes m.root fuel vis hvis
  have hslot : ∀ i : Nat, ∀ hi : i < L.length,
      getEntry st0.xPos (L.get ⟨i, hi⟩) = some ((i : Nat) : ℚ) := by
    intro i hi
    have := slL i hi
    simpa using this
  have hmemvis : ∀ i : Nat, ∀ hi : i < L.length, L.get ⟨i, hi⟩ ∈ vis := by
    intro i hi
    exact (hiff _).mpr ((mL _).mp (L.get_mem _ _)).1
  have hco : ∀ i : Nat, ∀ hi : i < L.length,
      getCoord out.coords (L.get ⟨i, hi⟩) =
        some (((i : Nat) : ℚ) * (NODE_W + X_GAP),
          ((getEntry st0.depth (L.get ⟨i, hi⟩)).getD 0 : ℚ) * (NODE_H + Y_GAP)) := by
    intro i hi
    rw [hoc, getCoord_map_visible, if_pos (hmemvis i hi), hslot i hi]
    rfl
  refine ⟨L, ?_, ndL, hslot, hco, ?_⟩
  · intro y
    rw [mL y, hov]
    exact ⟨fun ⟨h1, h2⟩ => ⟨(hiff y).mpr h1, h2⟩, fun ⟨h1, h2⟩ => ⟨(hiff y).mp h1, h2⟩⟩
  · intro i j hi hj hne h
    rw [hco i hi, hco j hj] at h
    simp only [Option.map_some'] at h
    have hfst : ((i : Nat) : ℚ) * (NODE_W + X_GAP) = ((j : Nat) : ℚ) * (NODE_W + X_GAP) := by
      have := Option.some.inj h
      exact this
    have h166 : (NODE_W + X_GAP : ℚ) ≠ 0 := by norm_num [NODE_W, X_GAP]
    have : ((i : Nat) : ℚ) = ((j : Nat) : ℚ) := mul_right_cancel₀ h166 hfst
    exact hne (Nat.cast_injective this)

/-- Witness for C10 at the strict tree `model024`. -/
theorem c10_witness :
    ∃ L : List String,
      (∀ y, y ∈ L ↔ (y ∈ (LayoutResult.mk
          [("R", (332, 0)), ("c1", (0, 126)), ("c2", (332, 126)), ("d1", (166, 252)),
           ("d2", (332, 252)), ("d3", (498, 252)), ("c3", (664, 126))]
          ["R", "c1", "c2", "d1", "d2", "d3", "c3"]).vis ∧
        visibleChildren [] model024.nodes y = [])) ∧
      L.Nodup ∧
      (∀ i : Nat, ∀ hi : i < L.length,
        getEntry (PassState.mk
          [("c1", 0), ("d1", 1), ("d2", 2), ("d3", 3), ("c2", 2), ("c3", 4), ("R", 2)] 5
          [("R", 0), ("c1", 1), ("c2", 1), ("d1", 2), ("d2", 2), ("d3", 2), ("c3", 1)]).xPos
          (L.get ⟨i, hi⟩) = some ((i : Nat) : ℚ)) ∧
      (∀ i : Nat, ∀ hi : i < L.length,
        getCoord (LayoutResult.mk
          [("R", (332, 0)), ("c1", (0, 126)), ("c2", (332, 126)), ("d1", (166, 252)),
           ("d2", (332, 252)), ("d3", (498, 252)), ("c3", (664, 126))]
          ["R", "c1", "c2", "d1", "d2", "d3", "c3"]).coords (L.get ⟨i, hi⟩) =
          some (((i : Nat) : ℚ) * (NODE_W + X_GAP),
            ((getEntry (PassState.mk
              [("c1", 0), ("d1", 1), ("d2", 2), ("d3", 3), ("c2", 2), ("c3", 4), ("R", 2)] 5
              [("R", 0), ("c1", 1), ("c2", 1), ("d1", 2), ("d2", 2), ("d3", 2), ("c3", 1)]).depth
              (L.get ⟨i, hi⟩)).getD 0 : ℚ) * (NODE_H + Y_GAP))) ∧
      (∀ i j : Nat, ∀ hi : i < L.length, ∀ hj : j < L.length, i ≠ j →
        (getCoord (LayoutResult.mk
          [("R", (332, 0)), ("c1", (0, 126)), ("c2", (332, 126)), ("d1", (166, 252)),
           ("d2", (332, 252)), ("d3", (498, 252)), ("c3", (664, 126))]
          ["R", "c1", "c2", "d1", "d2", "d3", "c3"]).coords (L.get ⟨i, hi⟩)).map Prod.fst ≠
          (getCoord (LayoutResult.mk
          [("R", (332, 0)), ("c1", (0, 126)), ("c2", (332, 126)), ("d1", (166, 252)),
           ("d2", (332, 252)), ("d3", (498, 252)), ("c3", (664, 126))]
          ["R", "c1", "c2", "d1", "d2", "d3", "c3"]).coords (L.get ⟨j, hj⟩)).map Prod.fst) :=
  c10_leaf_slots model024 [] 10
    (PassState.mk
      [("c1", 0), ("d1", 1), ("d2", 2), ("d3", 3), ("c2", 2), ("c3", 4), ("R", 2)] 5
      [("R", 0), ("c1", 1), ("c2", 1), ("d1", 2), ("d2", 2), ("d3", 2), ("c3", 1)])
    (LayoutResult.mk
      [("R", (332, 0)), ("c1", (0, 126)), ("c2", (332, 126)), ("d1", (166, 252)),
       ("d2", (332, 252)), ("d3", (498, 252)), ("c3", (664, 126))]
      ["R", "c1", "c2", "d1", "d2", "d3", "c3"])
    (strictTree_implies_visTree (by decide) [])
    (by decide)
    (by decide)

/-! ### C6: visible set vs coordinate map, and the coordinate formulas -/

/-- C6: for every model and collapsed set, the visible set returned by
layout is exactly the set of ids with a computed coordinate, and each
visible id's coordinates are `x = slot * (NODE_W + X_GAP)` and
`y = depth * (NODE_H + Y_GAP)` for the slot and depth recorded by the
first pass.  The depth-chain property — root at depth 0 and each
visible child one deeper than its parent — holds when the visible
portion reachable from the root is a strict tree. -/
theorem c6_coordinates (m : Model) (c : List String) (fuel : Nat) (st : PassState)
    (out : LayoutResult)
    (hst : firstPassFuel c m.nodes fuel m.root 0
      { xPos := [], xNext := 0, depth := [] } = some st)
    (hlay : layoutTree fuel m c = some out) :
    (∀ y, y ∈ out.vis ↔ (getCoord out.coords y).isSome) ∧
    (∀ y, y ∈ out.vis →
      ∃ slot : ℚ, ∃ dep : Nat,
        getEntry st.xPos y = some slot ∧
        getEntry st.depth y = some dep ∧
        getCoord out.coords y =
          some (slot * (NODE_W + X_GAP), (dep : ℚ) * (NODE_H + Y_GAP))) ∧
    (VisTreeFrom c m.nodes m.root →
      getEntry st.depth m.root = some 0 ∧
      ∀ y, y ∈ out.vis → ∀ k ∈ visibleChildren c m.nodes y,
        ∃ dy : Nat, getEntry st.depth y = some dy ∧
          getEntry st.depth k = some (dy + 1)) := by
  obtain ⟨st0, vis, hst0, hvis, hov, hoc⟩ := layoutTree_spec hlay
  have hsteq : st0 = st := by
    rw [hst] at hst0
    exact (Option.some.inj hst0).symm
  subst hsteq
  have hiff := dfs_reach_iff c m.nodes m.root fuel vis hvis
  refine ⟨?_, ?_, ?_⟩
  · intro y
    rw [hov, hoc, getCoord_map_visible]
    by_cases hy : y ∈ vis
    · rw [if_pos hy]; simp [hy]
    · rw [if_neg hy]; simp [hy]
  · intro y hyv
    have hreach : ReachVis c m.nodes m.root y := (hiff y).mp (hov ▸ hyv)
    have hsome := ((fp_main c m.nodes fuel).1 m.root 0 _ st0 hst).2.2.2.1 y hreach
    obtain ⟨slot, hslot⟩ := Option.isSome_iff_exists.mp hsome.1
    obtain ⟨dep, hdep⟩ := Option.isSome_iff_exists.mp hsome.2
    refine ⟨slot, dep, hslot, hdep, ?_⟩
    rw [hoc, getCoord_map_visible, if_pos (hov ▸ hyv), hslot, hdep]
    rfl
  · intro hvt
    obtain ⟨hup, hnc, hkn⟩ := hvt
    obtain ⟨L, _, _, _, _, _, hdr, hdc⟩ :=
      (bl_main c m.nodes m.root hup hkn hnc fuel).1 m.root 0 _ st0 hst
        Relation.ReflTransGen.refl
    refine ⟨hdr, ?_⟩
    intro y hyv k hk
    exact hdc y ((hiff y).mp (hov ▸ hyv)) k hk

/-- Witness for C6 at `model024` with the empty collapsed set. -/
theorem c6_witness :
    (∀ y, y ∈ (LayoutResult.mk
        [("R", (332, 0)), ("c1", (0, 126)), ("c2", (332, 126)), ("d1", (166, 252)),
         ("d2", (332, 252)), ("d3", (498, 252)), ("c3", (664, 126))]
        ["R", "c1", "c2", "d1", "d2", "d3", "c3"]).vis ↔
      (getCoord (LayoutResult.mk
        [("R", (332, 0)), ("c1", (0, 126)), ("c2", (332, 126)), ("d1", (166, 252)),
         ("d2", (332, 252)), ("d3", (498, 252)), ("c3", (664, 126))]
        ["R", "c1", "c2", "d1", "d2", "d3", "c3"]).coords y).isSome) ∧
    (∀ y, y ∈ (LayoutResult.mk
        [("R", (332, 0)), ("c1", (0, 126)), ("c2", (332, 126)), ("d1", (166, 252)),
         ("d2", (332, 252)), ("d3", (498, 252)), ("c3", (664, 126))]
        ["R", "c1", "c2", "d1", "d2", "d3", "c3"]).vis →
      ∃ slot : ℚ, ∃ dep : Nat,
        getEntry (PassState.mk
          [("c1", 0), ("d1", 1), ("d2", 2), ("d3", 3), ("c2", 2), ("c3", 4), ("R", 2)] 5
          [("R", 0), ("c1", 1), ("c2", 1), ("d1", 2), ("d2", 2), ("d3", 2), ("c3", 1)]).xPos y
          = some slot ∧
        getEntry (PassState.mk
          [("c1", 0), ("d1", 1), ("d2", 2), ("d3", 3), ("c2", 2), ("c3", 4), ("R", 2)] 5
          [("R", 0), ("c1", 1), ("c2", 1), ("d1", 2), ("d2", 2), ("d3", 2), ("c3", 1)]).depth y
          = some dep ∧
        getCoord (LayoutResult.mk
          [("R", (332, 0)), ("c1", (0, 126)), ("c2", (332, 126)), ("d1", (166, 252)),
           ("d2", (332, 252)), ("d3", (498, 252)), ("c3", (664, 126))]
          ["R", "c1", "c2", "d1", "d2", "d3", "c3"]).coords y =
          some (slot * (NODE_W + X_GAP), (dep : ℚ) * (NODE_H + Y_GAP))) ∧
    (VisTreeFrom [] model024.nodes model024.root →
      getEntry (PassState.mk
        [("c1", 0), ("d1", 1), ("d2", 2), ("d3", 3), ("c2", 2), ("c3", 4), ("R", 2)] 5
        [("R", 0), ("c1", 1), ("c2", 1), ("d1", 2), ("d2", 2), ("d3", 2), ("c3", 1)]).depth
        model024.root = some 0 ∧
      ∀ y, y ∈ (LayoutResult.mk
        [("R", (332, 0)), ("c1", (0, 126)), ("c2", (332, 126)), ("d1", (166, 252)),
         ("d2", (332, 252)), ("d3", (498, 252)), ("c3", (664, 126))]
        ["R", "c1", "c2", "d1", "d2", "d3", "c3"]).vis →
        ∀ k ∈ visibleChildren [] model024.nodes y,
          ∃ dy : Nat, getEntry (PassState.mk
            [("c1", 0), ("d1", 1), ("d2", 2), ("d3", 3), ("c2", 2), ("c3", 4), ("R", 2)] 5
            [("R", 0), ("c1", 1), ("c2", 1), ("d1", 2), ("d2", 2), ("d3", 2), ("c3", 1)]).depth y
            = some dy ∧
          getEntry (PassState.mk
            [("c1", 0), ("d1", 1), ("d2", 2), ("d3", 3), ("c2", 2), ("c3", 4), ("R", 2)] 5
            [("R", 0), ("c1", 1), ("c2", 1), ("d1", 2), ("d2", 2), ("d3", 2), ("c3", 1)]).depth k
            = some (dy + 1)) :=
  c6_coordinates model024 [] 10
    (PassState.mk
      [("c1", 0), ("d1", 1), ("d2", 2), ("d3", 3), ("c2", 2), ("c3", 4), ("R", 2)] 5
      [("R", 0), ("c1", 1), ("c2", 1), ("d1", 2), ("d2", 2), ("d3", 2), ("c3", 1)])
    (LayoutResult.mk
      [("R", (332, 0)), ("c1", (0, 126)), ("c2", (332, 126)), ("d1", (166, 252)),
       ("d2", (332, 252)), ("d3", (498, 252)), ("c3", (664, 126))]
      ["R", "c1", "c2", "d1", "d2", "d3", "c3"])
    (by decide)
    (by decide)

/-! ### C2: leaf slot counter and min/max centering -/

/-- C2: in the first pass a leaf (no visible children) takes the next
counter value as its slot and bumps the counter; the counter never
decreases; a non-leaf recurses into its children first and then takes
the average of only the minimum and maximum slot of its immediate
visible children (`centerOf`).  On the concrete model whose root has
children at slots `{0, 2, 4}` the root gets slot `(0 + 4) / 2 = 2`,
independent of the middle child's slot. -/
theorem c2_slot_assignment :
    (∀ c nodes fuel id d st,
      (visibleChildren c nodes id = [] →
        firstPassFuel c nodes (fuel + 1) id d st =
          some { xPos := setEntry st.xPos id (st.xNext : ℚ),
                 xNext := st.xNext + 1,
                 depth := setEntry st.depth id d }) ∧
      (∀ st', firstPassFuel c nodes fuel id d st = some st' →
        st.xNext ≤ st'.xNext) ∧
      (visibleChildren c nodes id ≠ [] →
        ∀ st', firstPassFuel c nodes (fuel + 1) id d st = some st' →
        ∃ st2, goKids (firstPassFuel c nodes fuel) (visibleChildren c nodes id) (d + 1)
            { st with depth := setEntry st.depth id d } = some st2 ∧
          st' = { xPos := setEntry st2.xPos id (centerOf c nodes st2.xPos id),
                  xNext := st2.xNext,
                  depth := st2.depth })) ∧
    getEntry (firstPassFuel [] model024.nodes 10 "R" 0
        { xPos := [], xNext := 0, depth := [] } |>.map PassState.xPos |>.getD []) "c1"
      = some 0 ∧
    getEntry (firstPassFuel [] model024.nodes 10 "R" 0
        { xPos := [], xNext := 0, depth := [] } |>.map PassState.xPos |>.getD []) "c2"
      = some 2 ∧
    getEntry (firstPassFuel [] model024.nodes 10 "R" 0
        { xPos := [], xNext := 0, depth := [] } |>.map PassState.xPos |>.getD []) "c3"
      = some 4 ∧
    getEntry (firstPassFuel [] model024.nodes 10 "R" 0
        { xPos := [], xNext := 0, depth := [] } |>.map PassState.xPos |>.getD []) "R"
      = some 2 := by
  refine ⟨?_, by decide, by decide, by decide, by decide⟩
  intro c nodes fuel id d st
  refine ⟨?_, ?_, ?_⟩
  · intro hleaf
    unfold firstPassFuel
    rw [hleaf]
    rfl
  · intro st' h
    exact ((fp_main c nodes fuel).1 id d st st' h).2.2.1
  · intro hne st' h
    unfold firstPassFuel at h
    have hfalse : (visibleChildren c nodes id).isEmpty = false := by
      cases hk : visibleChildren c nodes id with
      | nil => exact absurd hk hne
      | cons a l => rfl
    simp only [hfalse, Bool.false_eq_true, if_false] at h
    cases hgk : goKids (firstPassFuel c nodes fuel) (visibleChildren c nodes id) (d + 1)
        { st with depth := setEntry st.depth id d } with
    | none =>
      rw [hgk] at h
      cases h
    | some st2 =>
      rw [hgk] at h
      refine ⟨st2, rfl, ?_⟩
      have := Option.some.inj h
      rw [← this]
      rfl


/-! ### C8: a single chain places every node at slot 0, depths 0..n-1 -/

theorem chainId_inj {i j : Nat} (h : chainId i = chainId j) : i = j := by
  unfold chainId at h
  injection h with h
  have := congrArg List.length h
  simpa using this

theorem find?_range_map (f : Nat → String × Node)
    (hk : ∀ j, (f j).1 = chainId j) :
    ∀ n i, i < n →
      ((List.range n).map f).find? (fun p => p.1 = chainId i) = some (f i) := by
  intro n
  induction n with
  | zero => intro i hi; omega
  | succ n ih =>
    intro i hi
    rw [List.range_succ, List.map_append, List.find?_append]
    by_cases hin : i < n
    · rw [ih i hin]; rfl
    · have hieq : i = n := by omega
      subst hieq
      have hpre : ((List.range i).map f).find? (fun p => p.1 = chainId i) = none := by
        rw [List.find?_eq_none]
        intro p hp
        obtain ⟨j, hj, hfj⟩ := List.mem_map.mp hp
        subst hfj
        simp only [hk, decide_eq_true_eq]
        intro hEq
        exact absurd (chainId_inj hEq) (by have := List.mem_range.mp hj; omega)
      rw [hpre, Option.none_or]
      simp only [List.map_cons, List.map_nil]
      rw [List.find?_cons_of_pos _ (by simp [hk i])]

theorem chain_lookup {n i : Nat} (hi : i < n) :
    lookupNode (chainNodes n) (chainId i) =
      some { id := chainId i, title := chainId i,
             children := if i + 1 < n then [chainId (i + 1)] else [] } := by
  unfold lookupNode chainNodes
  rw [find?_range_map _ (fun j => rfl) n i hi]
  rfl

theorem chain_kids {n i : Nat} (hi : i < n) :
    visibleChildren [] (chainNodes n) (chainId i) =
      if i + 1 < n then [chainId (i + 1)] else [] := by
  unfold visibleChildren
  rw [if_neg (by simp), chain_lookup hi]

theorem chain_fp (n : Nat) :
    ∀ fuel i d st, n ≤ i + fuel → i < n →
      ∃ st', firstPassFuel [] (chainNodes n) fuel (chainId i) d st = some st' ∧
        st'.xNext = st.xNext + 1 ∧
        (∀ j, i ≤ j → j < n →
          getEntry st'.xPos (chainId j) = some ((st.xNext : Nat) : ℚ)) ∧
        (∀ j, i ≤ j → j < n →
          getEntry st'.depth (chainId j) = some (d + (j - i))) ∧
        (∀ y, (∀ j, i ≤ j → j < n → y ≠ chainId j) →
          getEntry st'.xPos y = getEntry st.xPos y ∧
          getEntry st'.depth y = getEntry st.depth y) := by
  intro fuel
  induction fuel with
  | zero => intro i d st hsum hi; omega
  | succ fuel ih =>
    intro i d st hsum hi
    by_cases hlast : i + 1 < n
    · obtain ⟨st2, hrec, hx2, hxp2, hdp2, hpres2⟩ :=
        ih (i + 1) (d + 1) { st with depth := setEntry st.depth (chainId i) d }
          (by omega) hlast
      have hne_i : ∀ j, i + 1 ≤ j → j < n → chainId i ≠ chainId j := by
        intro j h1 h2 hEq
        exact absurd (chainId_inj hEq) (by omega)
      have heq : firstPassFuel [] (chainNodes n) (fuel + 1) (chainId i) d st =
          some { xPos := setEntry st2.xPos (chainId i)
                   ((minList [(getEntry st2.xPos (chainId (i + 1))).getD 0] +
                     maxList [(getEntry st2.xPos (chainId (i + 1))).getD 0]) / 2),
                 xNext := st2.xNext, depth := st2.depth } := by
        unfold firstPassFuel
        simp only [chain_kids hi, if_pos hlast, List.isEmpty_cons, Bool.false_eq_true,
          if_false, goKids, hrec, List.map_cons, List.map_nil]
      have hslot2 : getEntry st2.xPos (chainId (i + 1)) = some ((st.xNext : Nat) : ℚ) :=
        hxp2 (i + 1) (le_refl _) hlast
      have hval : (minList [(getEntry st2.xPos (chainId (i + 1))).getD 0] +
          maxList [(getEntry st2.xPos (chainId (i + 1))).getD 0]) / 2 =
          ((st.xNext : Nat) : ℚ) := by
        rw [hslot2]
        show (((st.xNext : Nat) : ℚ) + ((st.xNext : Nat) : ℚ)) / 2 = _
        ring
      refine ⟨_, heq, hx2, ?_, ?_, ?_⟩
      · intro j h1 h2
        by_cases hj : j = i
        · subst hj
          show getEntry (setEntry st2.xPos (chainId j) _) (chainId j) = _
          rw [getEntry_setEntry_self, hval]
        · show getEntry (setEntry st2.xPos (chainId i) _) (chainId j) = _
          rw [getEntry_setEntry_ne _ _ _ _ (fun hEq => hj (chainId_inj hEq))]
          exact hxp2 j (by omega) h2
      · intro j h1 h2
        by_cases hj : j = i
        · subst hj
          show getEntry st2.depth (chainId j) = _
          rw [(hpres2 (chainId j) (hne_i)).2, getEntry_setEntry_self]
          simp
        · show getEntry st2.depth (chainId j) = _
          rw [hdp2 j (by omega) h2]
          congr 1
          omega
      · intro y hy
        have hy' : ∀ j, i + 1 ≤ j → j < n → y ≠ chainId j := by
          intro j h1 h2
          exact hy j (by omega) h2
        have hyi : y ≠ chainId i := hy i (le_refl _) hi
        constructor
        · show getEntry (setEntry st2.xPos (chainId i) _) y = _
          rw [getEntry_setEntry_ne _ _ _ _ hyi]
          exact (hpres2 y hy').1
        · show getEntry st2.depth y = _
          rw [(hpres2 y hy').2]
          exact getEntry_setEntry_ne _ _ _ _ hyi
    · have hieq : i + 1 = n := by omega
      have heq : firstPassFuel [] (chainNodes n) (fuel + 1) (chainId i) d st =
          some { xPos := setEntry st.xPos (chainId i) ((st.xNext : Nat) : ℚ),
                 xNext := st.xNext + 1,
                 depth := setEntry st.depth (chainId i) d } := by
        unfold firstPassFuel
        simp only [chain_kids hi, if_neg hlast, List.isEmpty_nil, if_true]
      refine ⟨_, heq, rfl, ?_, ?_, ?_⟩
      · intro j h1 h2
        have hj : j = i := by omega
        subst hj
        exact getEntry_setEntry_self _ _ _
      · intro j h1 h2
        have hj : j = i := by omega
        subst hj
        rw [getEntry_setEntry_self]
        simp
      · intro y hy
        have hyi : y ≠ chainId i := hy i (le_refl _) hi
        exact ⟨getEntry_setEntry_ne _ _ _ _ hyi, getEntry_setEntry_ne _ _ _ _ hyi⟩

theorem chain_dfs (n : Nat) :
    ∀ fuel i vis, n ≤ i + fuel → i < n →
      (∀ j, i ≤ j → j < n → chainId j ∉ vis) →
      dfsFuel [] (chainNodes n) fuel (chainId i) vis =
        some (vis ++ (List.range' i (n - i)).map chainId) := by
  intro fuel
  induction fuel with
  | zero => intro i vis hsum hi _; omega
  | succ fuel ih =>
    intro i vis hsum hi hfresh
    have hcont : vis.contains (chainId i) = false := by
      rw [← Bool.not_eq_true, List.contains_eq_any_beq]
      simp only [List.any_eq_true, beq_iff_eq, not_exists, not_and]
      intro x hx hEq
      exact hfresh i (le_refl _) hi (hEq ▸ hx)
    unfold dfsFuel
    rw [hcont]
    simp only [Bool.false_eq_true, if_false, chain_kids hi]
    by_cases hlast : i + 1 < n
    · rw [if_pos hlast]
      have hrec := ih (i + 1) (vis ++ [chainId i]) (by omega) hlast (by
        intro j h1 h2
        rw [List.mem_append, List.mem_singleton]
        push_neg
        refine ⟨hfresh j (by omega) h2, ?_⟩
        intro hEq
        exact absurd (chainId_inj hEq) (by omega))
      show dfsKids _ [chainId (i + 1)] (vis ++ [chainId i]) = _
      simp only [dfsKids, hrec]
      have hr : n - i = (n - (i + 1)) + 1 := by omega
      rw [hr, List.range'_succ, List.map_cons]
      simp [List.append_assoc]
    · rw [if_neg hlast]
      show some (vis ++ [chainId i]) = _
      have hr : n - i = 1 := by omega
      rw [hr]
      rfl

theorem layoutTree_eq_of {fuel : Nat} {m : Model} {c : List String} {st : PassState}
    {vis : List String}
    (hfp : firstPassFuel c m.nodes fuel m.root 0
      { xPos := [], xNext := 0, depth := [] } = some st)
    (hv : dfsFuel c m.nodes fuel m.root [] = some vis) :
    layoutTree fuel m c =
      some { coords := vis.map (fun id =>
               (id, ((getEntry st.xPos id).getD 0 * (NODE_W + X_GAP),
                     ((getEntry st.depth id).getD 0 : ℚ) * (NODE_H + Y_GAP)))),
             vis := vis } := by
  unfold layoutTree
  rw [hfp, hv]

/-- C8: for every n ≥ 1, laying out a single chain of n nodes with
nothing collapsed succeeds with fuel n, assigns slot 0 to every node
(the single leaf takes counter value 0 and every ancestor is centred
over its one child), uses exactly one leaf slot, records depths 0
through n-1 from the root down, and gives node i the coordinates
(0, i * (NODE_H + Y_GAP)). -/
theorem c8_chain_layout (n : Nat) (hn : 1 ≤ n) :
    ∃ st out,
      firstPassFuel [] (chainNodes n) n (chainId 0) 0 initState = some st ∧
      layoutTree n (chainModel n) [] = some out ∧
      st.xNext = 1 ∧
      out.vis = (List.range n).map chainId ∧
      (∀ i, i < n → getEntry st.xPos (chainId i) = some 0) ∧
      (∀ i, i < n → getEntry st.depth (chainId i) = some i) ∧
      (∀ i, i < n → getCoord out.coords (chainId i) =
        some (0, (i : ℚ) * (NODE_H + Y_GAP))) := by
  obtain ⟨st, hfp, hx, hxp, hdp, _⟩ :=
    chain_fp n n 0 0 initState (by omega) (by omega)
  have hdfs := chain_dfs n n 0 [] (by omega) (by omega) (by intro j _ _ h; cases h)
  rw [show ([] : List String) ++ (List.range' 0 (n - 0)).map chainId
      = (List.range n).map chainId by simp [List.range_eq_range']] at hdfs
  have hxp' : ∀ i, i < n → getEntry st.xPos (chainId i) = some 0 := by
    intro i hi
    rw [hxp i (by omega) hi]
    norm_num [initState]
  have hdp' : ∀ i, i < n → getEntry st.depth (chainId i) = some i := by
    intro i hi
    rw [hdp i (by omega) hi]
    congr 1
    omega
  refine ⟨st, _, hfp, layoutTree_eq_of hfp hdfs, by simpa [initState] using hx,
    rfl, hxp', hdp', ?_⟩
  intro i hi
  rw [getCoord_map_visible, if_pos (List.mem_map_of_mem _ (List.mem_range.mpr hi)),
    hxp' i hi, hdp' i hi]
  norm_num


/-- Witness for C8 at the chain of three nodes. -/
theorem c8_witness :
    ∃ st out,
      firstPassFuel [] (chainNodes 3) 3 (chainId 0) 0 initState = some st ∧
      layoutTree 3 (chainModel 3) [] = some out ∧
      st.xNext = 1 ∧
      out.vis = (List.range 3).map chainId ∧
      (∀ i, i < 3 → getEntry st.xPos (chainId i) = some 0) ∧
      (∀ i, i < 3 → getEntry st.depth (chainId i) = some i) ∧
      (∀ i, i < 3 → getCoord out.coords (chainId i) =
        some (0, (i : ℚ) * (NODE_H + Y_GAP))) :=
  c8_chain_layout 3 (by decide)

end Flowchart
